import Mathlib

/-!
Verification of the pupillometry preprocessing pipeline
(`fluency_proc_subject.py`, `hvlt_encoding_proc_subject.py`,
`hvlt_recall_proc_subject.py`, `hvlt_recall_quartileSummary.py`).

Timestamps are modelled in integer milliseconds (pandas datetime indexes
are integer-valued nanoseconds; the scripts' offsets `500ms`, `1s`, `6s`,
`2000ms` are exact in this unit).  Pupil-diameter values are rationals;
missing values (pandas `NaN`) are modelled with `Option`.
-/

namespace Pupil

/-- Arithmetic mean of a list of rationals; `none` for the empty list.
This is the aggregation applied by pandas `.mean()` on a numeric column. -/
def qMean (xs : List ℚ) : Option ℚ :=
  if xs.isEmpty then none else some (xs.sum / xs.length)

/-- pandas `.mean()` on a column that may contain missing values:
missing entries are skipped (`skipna`), and the mean of an all-missing or
empty column is itself missing. -/
def optMean (xs : List (Option ℚ)) : Option ℚ :=
  qMean (xs.filterMap id)

/-- Subtraction lifted to possibly-missing values: `NaN` propagates. -/
def osub (a b : Option ℚ) : Option ℚ :=
  match a, b with
  | some x, some y => some (x - y)
  | _, _ => none

/-- Bin label of time `t` under `resample(..., closed='right', label='right')`:
the bin containing `t` is `(L - w, L]` and is labelled by its end time `L`,
i.e. `L = w * ⌈t/w⌉`. -/
def labelRight (w t : ℤ) : ℤ := w * (-((-t) / w))

/-- Bin label of time `t` under the pandas defaults (`closed='left'`,
`label='left'`, which is what `resample('500ms')` with no further arguments
uses): the bin containing `t` is `[L, L + w)` and is labelled by its start
time `L`, i.e. `L = w * ⌊t/w⌋`. -/
def labelLeft (w t : ℤ) : ℤ := w * (t / w)

/-- Aggregated value of the bin labelled `L`: arithmetic mean of the samples
whose bin label (under `lab`) equals `L`; missing when the bin is empty. -/
def binValBy (lab : ℤ → ℤ) (L : ℤ) (xs : List (ℤ × ℚ)) : Option ℚ :=
  qMean ((xs.filter (fun p => lab p.1 == L)).map (·.2))

/-- `resample(...).mean()` on samples `(time, value)`: emits one row per bin
label from the first to the last occupied label, stepping by the bin width;
empty bins are emitted with a missing value. -/
def binsWith (lab : ℤ → ℤ) (w : ℤ) (xs : List (ℤ × ℚ)) : List (ℤ × Option ℚ) :=
  match xs with
  | [] => []
  | p :: ps =>
    let labs := (p :: ps).map (fun q => lab q.1)
    let lo := labs.foldl min (lab p.1)
    let hi := labs.foldl max (lab p.1)
    (List.range (1 + ((hi - lo) / w).toNat)).map
      (fun k => ((lo + (k : ℤ) * w), binValBy lab (lo + (k : ℤ) * w) (p :: ps)))

/-- Embedding of the fluency 500ms aggregation
(`fluency_proc_subject.py` line 94:
`x.resample('500ms', level='Timestamp').mean()`): no `closed`/`label`
arguments are passed, so the pandas defaults (left-closed, left-labelled)
apply. -/
def fluencyBin500 (xs : List (ℤ × ℚ)) : List (ℤ × Option ℚ) :=
  binsWith (labelLeft 500) 500 xs

/-- Embedding of `x.resample(freq, closed='right', label='right').mean()`
as used by the encoding script (1s and 6s bins) and the recall script
(1s bins); `w` is the bin width in milliseconds. -/
def binRight (w : ℤ) (xs : List (ℤ × ℚ)) : List (ℤ × Option ℚ) :=
  binsWith (labelRight w) w xs

/-- The claimed (spec-worded) 500ms aggregation for the fluency task:
right-closed, right-labelled bins.  Compared against `fluencyBin500`,
which is translated from the source. -/
def fluencyBin500SpecRight (xs : List (ℤ × ℚ)) : List (ℤ × Option ℚ) :=
  binRight 500 xs

/-- Floor-division characterization of Euclidean division by a positive
divisor. -/
theorem ediv_eq_iff {w : ℤ} (hw : 0 < w) (s k : ℤ) :
    s / w = k ↔ k * w ≤ s ∧ s < k * w + w := by
  have h1 := Int.ediv_add_emod s w
  have h2 := Int.emod_nonneg s (ne_of_gt hw)
  have h3 := Int.emod_lt_of_pos s hw
  constructor
  · intro h
    rw [h] at h1
    constructor <;> nlinarith
  · rintro ⟨hlo, hhi⟩
    by_contra hne
    rcases lt_or_gt_of_ne hne with hlt | hgt
    · have hq : s / w ≤ k - 1 := by omega
      nlinarith [mul_le_mul_of_nonneg_left hq (le_of_lt hw)]
    · have hq : k + 1 ≤ s / w := by omega
      nlinarith [mul_le_mul_of_nonneg_left hq (le_of_lt hw)]

/-- Characterization of the left-closed bin labels: for a bin boundary
`t = k * w`, the bin labelled `t` is exactly `[t, t + w)`. -/
theorem labelLeft_eq_iff {w : ℤ} (hw : 0 < w) (s t k : ℤ) (hk : t = k * w) :
    labelLeft w s = t ↔ (t ≤ s ∧ s < t + w) := by
  have hw0 : w ≠ 0 := ne_of_gt hw
  subst hk
  have hcan : labelLeft w s = k * w ↔ s / w = k := by
    unfold labelLeft
    constructor
    · intro h
      have h2 : w * (s / w) = w * k := by linarith
      exact mul_left_cancel₀ hw0 h2
    · intro h
      rw [h]; ring
  rw [hcan, ediv_eq_iff hw]

/-- Characterization of the right-closed bin labels: for a bin boundary
`t = k * w`, the bin labelled `t` is exactly `(t - w, t]`. -/
theorem labelRight_eq_iff {w : ℤ} (hw : 0 < w) (s t k : ℤ) (hk : t = k * w) :
    labelRight w s = t ↔ (t - w < s ∧ s ≤ t) := by
  have hw0 : w ≠ 0 := ne_of_gt hw
  subst hk
  have hcan : labelRight w s = k * w ↔ (-s) / w = -k := by
    unfold labelRight
    constructor
    · intro h
      have h2 : w * (-s / w) = w * (-k) := by linarith
      exact mul_left_cancel₀ hw0 h2
    · intro h
      rw [h]; ring
  rw [hcan, ediv_eq_iff hw]
  constructor <;> rintro ⟨h1, h2⟩ <;> constructor <;> linarith

/-- C2, counterexample.  On the sample list `[(250ms, 2), (500ms, 4)]` the
fluency 500ms aggregation (pandas defaults: left-closed, left-labelled)
emits two bins labelled by their start times and puts the boundary sample
`t = 500ms` into the later bin, whereas the right-closed right-labelled
rule claimed for every task variant would merge both samples into the
single bin labelled `500ms`.  Hence the fluency variant does not use
right-closed, right-labelled bin edges. -/
theorem c2_counterexample :
    fluencyBin500 [(250, 2), (500, 4)] = [(0, some 2), (500, some 4)] ∧
    fluencyBin500SpecRight [(250, 2), (500, 4)] = [(500, some 3)] ∧
    fluencyBin500 [(250, 2), (500, 4)] ≠ fluencyBin500SpecRight [(250, 2), (500, 4)] := by
  refine ⟨?_, ?_, ?_⟩
  · show binsWith (labelLeft 500) 500 _ = _
    simp only [binsWith, binValBy, labelLeft, List.map, List.filter, List.range,
      List.range.loop, qMean]
    norm_num
  · simp only [fluencyBin500SpecRight, binRight, binsWith, binValBy, labelRight,
      List.map, List.filter, List.range, List.range.loop, qMean]
    norm_num
  · intro h
    have h1 : fluencyBin500 [(250, 2), (500, 4)] = [(0, some 2), (500, some 4)] := by
      show binsWith (labelLeft 500) 500 _ = _
      simp only [binsWith, binValBy, labelLeft, List.map, List.filter, List.range,
        List.range.loop, qMean]
      norm_num
    have h2 : fluencyBin500SpecRight [(250, 2), (500, 4)] = [(500, some 3)] := by
      simp only [fluencyBin500SpecRight, binRight, binsWith, binValBy, labelRight,
        List.map, List.filter, List.range, List.range.loop, qMean]
      norm_num
    rw [h1, h2] at h
    simp at h

/-- C2, amended.  The encoding (1s, 6s) and recall (1s) aggregations use
right-closed, right-labelled bin edges: the bin labelled `t` (a bin
boundary) is `(t - w, t]`, so its label is its end time and a sample lying
exactly on the boundary belongs to the earlier bin.  The fluency 500ms
aggregation instead uses the pandas defaults, left-closed and
left-labelled: the bin labelled `t` is `[t, t + w)`, so its label is its
start time and a boundary sample belongs to the later bin.  All variants
aggregate by arithmetic mean. -/
theorem c2_amended (w t : ℤ) (hw : 0 < w) (k : ℤ) (hk : t = k * w) :
    labelRight w t = t ∧ labelLeft w t = t ∧
    (∀ s, labelRight w s = t ↔ (t - w < s ∧ s ≤ t)) ∧
    (∀ s, labelLeft w s = t ↔ (t ≤ s ∧ s < t + w)) := by
  refine ⟨?_, ?_, fun s => labelRight_eq_iff hw s t k hk,
    fun s => labelLeft_eq_iff hw s t k hk⟩
  · rw [labelRight_eq_iff hw t t k hk]
    exact ⟨by linarith, le_refl t⟩
  · rw [labelLeft_eq_iff hw t t k hk]
    exact ⟨le_refl t, by linarith⟩

/-- C2 amended, witness at `w = 500`, `t = 500`. -/
theorem c2_amended_witness :
    (0 : ℤ) < 500 ∧ (500 : ℤ) = (1 : ℤ) * 500 ∧
    (labelRight 500 500 = 500 ∧ labelLeft 500 500 = 500 ∧
      (∀ s, labelRight 500 s = 500 ↔ ((500:ℤ) - 500 < s ∧ s ≤ 500)) ∧
      (∀ s, labelLeft 500 s = 500 ↔ ((500:ℤ) ≤ s ∧ s < 500 + 500))) :=
  ⟨by norm_num, by norm_num, c2_amended 500 500 (by norm_num) 1 (by norm_num)⟩

/-- Sum over a constant-one map equals the length. -/
theorem sum_map_one {α : Type} (l : List α) :
    (l.map (fun _ => (1 : ℚ))).sum = (l.length : ℚ) := by
  induction l with
  | nil => simp
  | cons a l ih =>
    rw [List.map_cons, List.sum_cons, ih, List.length_cons]
    push_cast
    ring

/-- Splitting a filtered sum over a partition of the filter predicate:
if `coarseP` holds exactly when one of `n` mutually exclusive fine
predicates holds, the `f`-sum over the coarse filter is the sum of the
`f`-sums over the fine filters. -/
theorem filter_split_sum {α : Type} (n : ℕ) (coarseP : α → Bool)
    (fineP : ℕ → α → Bool)
    (huniq : ∀ a i j, i < n → j < n → fineP i a = true → fineP j a = true → i = j)
    (hcover : ∀ a, coarseP a = true ↔ ∃ i : ℕ, i < n ∧ fineP i a = true)
    (f : α → ℚ) :
    ∀ xs : List α, ((xs.filter coarseP).map f).sum
      = ∑ i ∈ Finset.range n, ((xs.filter (fineP i)).map f).sum := by
  intro xs
  induction xs with
  | nil => simp
  | cons q xs ih =>
    have hstep : ∀ i : ℕ, (((q :: xs).filter (fineP i)).map f).sum
        = ((xs.filter (fineP i)).map f).sum + (if fineP i q = true then f q else 0) := by
      intro i
      rw [List.filter_cons]
      by_cases hi : fineP i q = true
      · rw [if_pos hi, if_pos hi, List.map_cons, List.sum_cons]
        ring
      · rw [if_neg hi, if_neg hi]
        ring
    have hR : ∑ i ∈ Finset.range n, (((q :: xs).filter (fineP i)).map f).sum
        = (∑ i ∈ Finset.range n, ((xs.filter (fineP i)).map f).sum)
          + (∑ i ∈ Finset.range n, if fineP i q = true then f q else 0) := by
      rw [← Finset.sum_add_distrib]
      exact Finset.sum_congr rfl (fun i _ => hstep i)
    rw [hR, List.filter_cons]
    by_cases hq : coarseP q = true
    · obtain ⟨i0, hi0, hf0⟩ := (hcover q).mp hq
      rw [if_pos hq, List.map_cons, List.sum_cons, ih]
      have hsingle : ∀ i ∈ Finset.range n,
          (if fineP i q = true then f q else 0) = (if i = i0 then f q else 0) := by
        intro i hi
        have hin : i < n := Finset.mem_range.mp hi
        by_cases hfi : fineP i q = true
        · rw [if_pos hfi, if_pos (huniq q i i0 hin hi0 hfi hf0)]
        · rw [if_neg hfi, if_neg]
          intro h
          exact hfi (h ▸ hf0)
      rw [Finset.sum_congr rfl hsingle,
        Finset.sum_ite_eq' (Finset.range n) i0 (fun _ => f q),
        if_pos (Finset.mem_range.mpr hi0)]
      ring
    · rw [if_neg hq, ih]
      have hzero : ∀ i ∈ Finset.range n, (if fineP i q = true then f q else 0) = 0 := by
        intro i hi
        rw [if_neg]
        intro hfi
        exact hq ((hcover q).mpr ⟨i, Finset.mem_range.mp hi, hfi⟩)
      rw [Finset.sum_congr rfl hzero, Finset.sum_const_zero]
      ring

/-- C7.  For the encoding aggregation, the coarse 6s (`quartile`) bin
labelled `L` and the fine 1s bins labelled `L, L-w, ..., L-5w` are derived
from the same series by the same right-closed right-labelled mean rule
(`binValBy (labelRight _)`), and when each of the six aligned fine bins
holds the same number `c > 0` of samples (as happens for a uniformly
resampled series spanning the coarse bin), every fine bin value is defined
and the coarse bin value equals the grand mean — the average of the six
fine bin values. -/
theorem c7_quartile_fine_agreement (xs : List (ℤ × ℚ)) (w : ℤ) (hw : 0 < w)
    (L : ℤ) (j : ℤ) (hL : L = j * (6 * w)) (c : ℕ) (hc : 0 < c)
    (hcount : ∀ i : ℕ, i < 6 →
      (xs.filter (fun p => labelRight w p.1 == L - (i : ℤ) * w)).length = c) :
    (∀ i : ℕ, i < 6 → (binValBy (labelRight w) (L - (i : ℤ) * w) xs).isSome) ∧
    binValBy (labelRight (6 * w)) L xs =
      some ((∑ i ∈ Finset.range 6,
        (binValBy (labelRight w) (L - (i : ℤ) * w) xs).getD 0) / 6) := by
  have h6w : (0 : ℤ) < 6 * w := by linarith
  have hcoarse : ∀ s : ℤ, (labelRight (6 * w) s = L) ↔ (L - 6 * w < s ∧ s ≤ L) :=
    fun s => labelRight_eq_iff h6w s L j hL
  have hfine : ∀ (i : ℕ) (s : ℤ), i < 6 →
      ((labelRight w s = L - (i : ℤ) * w) ↔
        (L - (i : ℤ) * w - w < s ∧ s ≤ L - (i : ℤ) * w)) := by
    intro i s _
    exact labelRight_eq_iff hw s _ (6 * j - (i : ℤ)) (by rw [hL]; ring)
  have huniq : ∀ (p : ℤ × ℚ) (i k : ℕ), i < 6 → k < 6 →
      (labelRight w p.1 == L - (i : ℤ) * w) = true →
      (labelRight w p.1 == L - (k : ℤ) * w) = true → i = k := by
    intro p i k hi hk h1 h2
    rw [beq_iff_eq] at h1 h2
    rw [hfine i p.1 hi] at h1
    rw [hfine k p.1 hk] at h2
    by_contra hne
    rcases Nat.lt_or_ge i k with hlt | hge
    · have hik : ((i : ℤ)) + 1 ≤ (k : ℤ) := by exact_mod_cast hlt
      nlinarith [h1.1, h1.2, h2.1, h2.2]
    · have hgt : k < i := Nat.lt_of_le_of_ne hge (fun h => hne h.symm)
      have hki : ((k : ℤ)) + 1 ≤ (i : ℤ) := by exact_mod_cast hgt
      nlinarith [h1.1, h1.2, h2.1, h2.2]
  have hcover : ∀ p : ℤ × ℚ, (labelRight (6 * w) p.1 == L) = true ↔
      ∃ i : ℕ, i < 6 ∧ (labelRight w p.1 == L - (i : ℤ) * w) = true := by
    intro p
    rw [beq_iff_eq, hcoarse p.1]
    constructor
    · rintro ⟨hlo, hhi⟩
      set d : ℤ := L - p.1 with hd
      have hd0 : 0 ≤ d := by omega
      have hd6 : d < 6 * w := by omega
      have hq0 : 0 ≤ d / w := Int.ediv_nonneg hd0 (le_of_lt hw)
      have hq6 : d / w < 6 := by
        by_contra hcon
        push_neg at hcon
        have h1 := Int.ediv_add_emod d w
        have h2 := Int.emod_nonneg d (ne_of_gt hw)
        nlinarith [mul_le_mul_of_nonneg_left hcon (le_of_lt hw)]
      refine ⟨(d / w).toNat, by omega, ?_⟩
      rw [beq_iff_eq, hfine (d / w).toNat p.1 (by omega)]
      have htn : (((d / w).toNat : ℤ)) = d / w := Int.toNat_of_nonneg hq0
      rw [htn]
      have hdiv := (ediv_eq_iff hw d (d / w)).mp rfl
      constructor <;> linarith [hdiv.1, hdiv.2]
    · rintro ⟨i, hi, hmem⟩
      rw [beq_iff_eq, hfine i p.1 hi] at hmem
      have hi6 : ((i : ℤ)) ≤ 5 := by exact_mod_cast Nat.lt_succ_iff.mp hi
      have hi0 : (0 : ℤ) ≤ (i : ℤ) := Int.natCast_nonneg i
      constructor <;> nlinarith [hmem.1, hmem.2]
  have hsum := filter_split_sum 6 (fun p => labelRight (6 * w) p.1 == L)
    (fun i p => labelRight w p.1 == L - (i : ℤ) * w) huniq hcover (·.2) xs
  have hcnt := filter_split_sum 6 (fun p => labelRight (6 * w) p.1 == L)
    (fun i p => labelRight w p.1 == L - (i : ℤ) * w) huniq hcover (fun _ => (1 : ℚ)) xs
  have hcntL : ((xs.filter (fun p => labelRight (6 * w) p.1 == L)).length : ℚ)
      = 6 * (c : ℚ) := by
    rw [← sum_map_one, hcnt,
      Finset.sum_congr rfl (fun i hi => by
        rw [sum_map_one, hcount i (Finset.mem_range.mp hi)])]
    rw [Finset.sum_const, Finset.card_range, nsmul_eq_mul]
    push_cast
    ring
  have hfval : ∀ i : ℕ, i < 6 →
      binValBy (labelRight w) (L - (i : ℤ) * w) xs
        = some (((xs.filter (fun p => labelRight w p.1 == L - (i : ℤ) * w)).map (·.2)).sum
            / (c : ℚ)) := by
    intro i hi
    unfold binValBy qMean
    have hne : ((xs.filter (fun p => labelRight w p.1 == L - (i : ℤ) * w)).map (·.2)).isEmpty
        = false := by
      cases hmap : (xs.filter (fun p => labelRight w p.1 == L - (i : ℤ) * w)).map (·.2) with
      | nil =>
        exfalso
        have hl0 := congrArg List.length hmap
        rw [List.length_map, hcount i hi] at hl0
        simp at hl0
        omega
      | cons a l => rfl
    simp only [hne, Bool.false_eq_true, if_false]
    rw [List.length_map, hcount i hi]
  refine ⟨fun i hi => by rw [hfval i hi]; rfl, ?_⟩
  have hclen : (xs.filter (fun p => labelRight (6 * w) p.1 == L)).length = 6 * c := by
    exact_mod_cast hcntL
  have hne : ((xs.filter (fun p => labelRight (6 * w) p.1 == L)).map (·.2)).isEmpty
      = false := by
    cases hmap : (xs.filter (fun p => labelRight (6 * w) p.1 == L)).map (·.2) with
    | nil =>
      exfalso
      have hl0 := congrArg List.length hmap
      rw [List.length_map, hclen] at hl0
      simp at hl0
      omega
    | cons a l => rfl
  have hrw : ∀ i ∈ Finset.range 6,
      (binValBy (labelRight w) (L - (i : ℤ) * w) xs).getD 0
        = ((xs.filter (fun p => labelRight w p.1 == L - (i : ℤ) * w)).map (·.2)).sum
            / (c : ℚ) := by
    intro i hi
    rw [hfval i (Finset.mem_range.mp hi)]
    rfl
  rw [Finset.sum_congr rfl hrw, ← Finset.sum_div]
  unfold binValBy qMean
  simp only [hne, Bool.false_eq_true, if_false]
  rw [List.length_map, hclen, hsum]
  congr 1
  rw [div_div]
  push_cast
  congr 1
  ring

/-- C7, witness: twelve samples 500ms apart spanning the coarse bin
`(0, 6000]`, two per fine 1s bin. -/
theorem c7_witness :
    (0 : ℤ) < 1000 ∧ (6000 : ℤ) = 1 * (6 * 1000) ∧ 0 < 2 ∧
    (∀ i : ℕ, i < 6 →
      (([(500, 1), (1000, 2), (1500, 3), (2000, 4), (2500, 5), (3000, 6),
         (3500, 7), (4000, 8), (4500, 9), (5000, 10), (5500, 11), (6000, 12)]
          : List (ℤ × ℚ)).filter
        (fun p => labelRight 1000 p.1 == 6000 - (i : ℤ) * 1000)).length = 2) ∧
    ((∀ i : ℕ, i < 6 →
      (binValBy (labelRight 1000) (6000 - (i : ℤ) * 1000)
        [(500, 1), (1000, 2), (1500, 3), (2000, 4), (2500, 5), (3000, 6),
         (3500, 7), (4000, 8), (4500, 9), (5000, 10), (5500, 11), (6000, 12)]).isSome) ∧
      binValBy (labelRight (6 * 1000)) 6000
        [(500, 1), (1000, 2), (1500, 3), (2000, 4), (2500, 5), (3000, 6),
         (3500, 7), (4000, 8), (4500, 9), (5000, 10), (5500, 11), (6000, 12)] =
        some ((∑ i ∈ Finset.range 6,
          (binValBy (labelRight 1000) (6000 - (i : ℤ) * 1000)
            [(500, 1), (1000, 2), (1500, 3), (2000, 4), (2500, 5), (3000, 6),
             (3500, 7), (4000, 8), (4500, 9), (5000, 10), (5500, 11), (6000, 12)]).getD 0) / 6)) :=
  ⟨by norm_num, by norm_num, by norm_num, by decide,
    c7_quartile_fine_agreement _ 1000 (by norm_num) 6000 1 (by norm_num) 2
      (by norm_num) (by decide)⟩


/-! ### Word-list-encoding trial segmentation (`hvlt_encoding_proc_subject.py`)

`get_trial_events` (lines 73-87) computes `isnull = df.CurrentObject.isnull()`,
`partitions = (isnull != isnull.shift()).cumsum()`, groups the non-null rows
by partition id, and concatenates the groups (which pandas iterates in
ascending key order) with new keys `1, 2, ...`.  Rows are modelled by their
event label (`Option String`; `none` is a null label), which is the only
column the partition logic inspects; all other columns are carried along
unchanged. -/

/-- Cumulative-sum partition ids, continuing from current id `cur` where
`prev` is the previous row's `isnull` value: the id increments exactly at
rows where `isnull` differs from the previous row. -/
def pidAux (prev : Bool) (cur : ℕ) : List Bool → List ℕ
  | [] => []
  | b :: bs =>
    (if b != prev then cur + 1 else cur) :: pidAux b (if b != prev then cur + 1 else cur) bs

/-- `(isnull != isnull.shift()).cumsum()`: the first row always starts
partition 1 (comparison with the shifted-in `NaN` is `True` in pandas). -/
def partitionIds : List Bool → List ℕ
  | [] => []
  | b :: bs => 1 :: pidAux b 1 bs

/-- The non-null rows paired with their partition ids (`df[~isnull]`
aligned with `partitions`). -/
def pairsOf (labels : List (Option String)) : List (ℕ × String) :=
  ((partitionIds (labels.map Option.isNone)).zip labels).filterMap
    (fun q => q.2.map (fun s => (q.1, s)))

/-- Single-pass form of `pairsOf` used for reasoning: emits
`(partition id, label)` for non-null rows, threading the previous row's
nullness and the current partition id. -/
def pairsAux (prev : Bool) (cur : ℕ) : List (Option String) → List (ℕ × String)
  | [] => []
  | none :: ls => pairsAux true (if prev then cur else cur + 1) ls
  | some s :: ls =>
    ((if prev then cur + 1 else cur), s) :: pairsAux false (if prev then cur + 1 else cur) ls

/-- Head-case form of `pairsOf`. -/
def pairsOfR : List (Option String) → List (ℕ × String)
  | [] => []
  | none :: ls => pairsAux true 1 ls
  | some s :: ls => (1, s) :: pairsAux false 1 ls

/-- Adjacent deduplication; on the nondecreasing partition-id sequence this
yields the distinct group keys in ascending order, which is the order in
which pandas `groupby` iterates the groups. -/
def dedupAdj : List ℕ → List ℕ
  | [] => []
  | [k] => [k]
  | k :: k2 :: ks => if k == k2 then dedupAdj (k2 :: ks) else k :: dedupAdj (k2 :: ks)

/-- `pd.concat([group for name, group in gb], keys=trial_nums)`: one block
per group key, in key order, relabelled with the trial counter `t`. -/
def concatGroups (pairs : List (ℕ × String)) : ℕ → List ℕ → List (ℕ × String)
  | _, [] => []
  | t, key :: keys =>
    (pairs.filter (fun p => p.1 == key)).map (fun p => (t, p.2))
      ++ concatGroups pairs (t + 1) keys

/-- Group the id-tagged rows by partition id and concatenate the groups with
keys `1, 2, ...`. -/
def groupCat (pairs : List (ℕ × String)) : List (ℕ × String) :=
  concatGroups pairs 1 (dedupAdj (pairs.map (·.1)))

/-- Embedding of `get_trial_events` for the encoding task: each non-null row
tagged with its trial number. -/
def codeTrials (labels : List (Option String)) : List (ℕ × String) :=
  groupCat (pairsOf labels)

/-- Run renumbering: tags each element with a counter that increments
whenever the partition id changes. -/
def renumAux (cnt k : ℕ) : List (ℕ × String) → List (ℕ × String)
  | [] => []
  | p :: ps =>
    if p.1 == k then (cnt, p.2) :: renumAux cnt k ps
    else (cnt + 1, p.2) :: renumAux (cnt + 1) p.1 ps

/-- Run renumbering starting at 1. -/
def renumber : List (ℕ × String) → List (ℕ × String)
  | [] => []
  | p :: ps => (1, p.2) :: renumAux 1 p.1 ps

/-- The claimed (spec-worded) segmentation: a trial is a maximal run of
consecutive rows with non-empty labels; trials are numbered `1, 2, ...` in
stream order with no assumption on the total count.  `cnt` is the number of
runs seen so far and `prevNull` records whether the previous row was null. -/
def specTrialsAux (cnt : ℕ) (prevNull : Bool) : List (Option String) → List (ℕ × String)
  | [] => []
  | none :: ls => specTrialsAux cnt true ls
  | some s :: ls =>
    ((if prevNull then cnt + 1 else cnt), s)
      :: specTrialsAux (if prevNull then cnt + 1 else cnt) false ls

/-- Maximal-run trial numbering of the non-null rows. -/
def specTrials (ls : List (Option String)) : List (ℕ × String) :=
  specTrialsAux 0 true ls

/-- The zipped-and-filtered form of the partition equals the single-pass form. -/
theorem pairsAux_spec : ∀ (ls : List (Option String)) (prev : Bool) (cur : ℕ),
    ((pidAux prev cur (ls.map Option.isNone)).zip ls).filterMap
      (fun q => q.2.map (fun s => (q.1, s))) = pairsAux prev cur ls := by
  intro ls
  induction ls with
  | nil => intro prev cur; rfl
  | cons l ls ih =>
    intro prev cur
    cases l with
    | none =>
      cases prev <;>
        simp [pidAux, pairsAux, Option.isNone, List.filterMap_cons, ih]
    | some s =>
      cases prev <;>
        simp [pidAux, pairsAux, Option.isNone, List.filterMap_cons, ih]

/-- `pairsOf` in head-case form. -/
theorem pairsOf_eq_pairsOfR (ls : List (Option String)) : pairsOf ls = pairsOfR ls := by
  cases ls with
  | nil => rfl
  | cons l ls =>
    cases l with
    | none =>
      show ((partitionIds ((none :: ls).map Option.isNone)).zip (none :: ls)).filterMap _
        = pairsAux true 1 ls
      simp only [List.map_cons, Option.isNone, partitionIds, List.zip_cons_cons,
        List.filterMap_cons, Option.map_none]
      exact pairsAux_spec ls true 1
    | some s =>
      show ((partitionIds ((some s :: ls).map Option.isNone)).zip (some s :: ls)).filterMap _
        = (1, s) :: pairsAux false 1 ls
      simp only [List.map_cons, Option.isNone, partitionIds, List.zip_cons_cons,
        List.filterMap_cons, Option.map_some']
      rw [pairsAux_spec ls false 1]

/-- Partition ids emitted by `pairsAux` are at least the current id, and the
emitted sequence is sorted by id. -/
theorem pairsAux_sorted : ∀ (ls : List (Option String)) (prev : Bool) (cur : ℕ),
    (∀ p ∈ pairsAux prev cur ls, cur ≤ p.1) ∧
    List.Sorted (fun a b : ℕ × String => a.1 ≤ b.1) (pairsAux prev cur ls) := by
  intro ls
  induction ls with
  | nil =>
    intro prev cur
    constructor
    · intro p hp; cases hp
    · exact List.sorted_nil
  | cons l ls ih =>
    intro prev cur
    cases l with
    | none =>
      constructor
      · intro p hp
        have hstep : (if prev then cur else cur + 1) ≥ cur := by
          cases prev <;> simp
        have := (ih true (if prev then cur else cur + 1)).1 p hp
        omega
      · exact (ih true (if prev then cur else cur + 1)).2
    | some s =>
      simp only [pairsAux]
      have hc : cur ≤ (if prev then cur + 1 else cur) := by
        cases prev <;> simp
      constructor
      · intro p hp
        rcases List.mem_cons.mp hp with heq | hmem
        · rw [heq]; exact hc
        · have := (ih false (if prev then cur + 1 else cur)).1 p hmem
          omega
      · rw [List.sorted_cons]
        constructor
        · intro b hb
          exact (ih false (if prev then cur + 1 else cur)).1 b hb
        · exact (ih false (if prev then cur + 1 else cur)).2

/-- On a list bounded below by `k` and sorted, `dedupAdj (k :: xs)` keeps
`k` in front and every later key is strictly larger. -/
theorem dedupAdj_head : ∀ (xs : List ℕ) (k : ℕ), (∀ x ∈ xs, k ≤ x) →
    List.Sorted (· ≤ ·) xs →
    ∃ rk, dedupAdj (k :: xs) = k :: rk ∧ ∀ x ∈ rk, k < x := by
  intro xs
  induction xs with
  | nil =>
    intro k _ _
    exact ⟨[], rfl, fun x hx => absurd hx (List.not_mem_nil x)⟩
  | cons k2 ks ih =>
    intro k hbound hsorted
    have hk2 : k ≤ k2 := hbound k2 (List.mem_cons_self k2 ks)
    have hks : ∀ x ∈ ks, k2 ≤ x := (List.sorted_cons.mp hsorted).1
    have hks2 : List.Sorted (· ≤ ·) ks := (List.sorted_cons.mp hsorted).2
    obtain ⟨rk2, hrk2, hgt2⟩ := ih k2 hks hks2
    by_cases heq : k = k2
    · refine ⟨rk2, ?_, ?_⟩
      · show dedupAdj (k :: k2 :: ks) = k :: rk2
        have hbeq : (k == k2) = true := beq_iff_eq.mpr heq
        simp only [dedupAdj, hbeq, if_true]
        rw [hrk2, heq]
      · intro x hx
        have := hgt2 x hx
        omega
    · have hlt : k < k2 := lt_of_le_of_ne hk2 heq
      refine ⟨k2 :: rk2, ?_, ?_⟩
      · show dedupAdj (k :: k2 :: ks) = k :: k2 :: rk2
        have hbeq : (k == k2) = false := beq_eq_false_iff_ne.mpr heq
        simp [dedupAdj, hbeq, hrk2]
      · intro x hx
        rcases List.mem_cons.mp hx with hx2 | hx2
        · omega
        · have := hgt2 x hx2
          omega

/-- A row whose id matches none of the keys contributes nothing to the
grouped concatenation. -/
theorem concatGroups_drop_head : ∀ (keys : List ℕ) (pairs : List (ℕ × String))
    (p : ℕ × String) (t : ℕ), (∀ key ∈ keys, p.1 ≠ key) →
    concatGroups (p :: pairs) t keys = concatGroups pairs t keys := by
  intro keys
  induction keys with
  | nil => intro pairs p t _; rfl
  | cons key keys ih =>
    intro pairs p t hfresh
    have hbeq : (p.1 == key) = false :=
      beq_eq_false_iff_ne.mpr (hfresh key (List.mem_cons_self key keys))
    show (List.filter _ (p :: pairs)).map _ ++ _ = (List.filter _ pairs).map _ ++ _
    rw [List.filter_cons, hbeq]
    simp only [Bool.false_eq_true, if_false]
    rw [ih pairs p (t + 1) (fun key2 h2 => hfresh key2 (List.mem_cons_of_mem key h2))]

/-- Shifting the trial counter shifts every emitted trial number. -/
theorem concatGroups_shift : ∀ (keys : List ℕ) (pairs : List (ℕ × String)) (t : ℕ),
    concatGroups pairs (t + 1) keys
      = (concatGroups pairs t keys).map (fun q => (q.1 + 1, q.2)) := by
  intro keys
  induction keys with
  | nil => intro pairs t; rfl
  | cons key keys ih =>
    intro pairs t
    show (List.filter _ pairs).map _ ++ _ = ((List.filter _ pairs).map _ ++ _).map _
    rw [List.map_append, List.map_map, ih pairs (t + 1)]
    rfl

/-- Shifting the run counter shifts every emitted run number. -/
theorem renumAux_shift : ∀ (xs : List (ℕ × String)) (cnt k : ℕ),
    renumAux (cnt + 1) k xs = (renumAux cnt k xs).map (fun q => (q.1 + 1, q.2)) := by
  intro xs
  induction xs with
  | nil => intro cnt k; rfl
  | cons p ps ih =>
    intro cnt k
    by_cases hp : (p.1 == k) = true
    · simp only [renumAux, hp, if_true, List.map_cons]
      rw [ih cnt k]
    · simp only [renumAux, hp, Bool.false_eq_true, if_false, List.map_cons]
      rw [ih (cnt + 1) p.1]
/-- pandas `groupby` + `concat` on the nondecreasing partition ids agrees
with single-pass run renumbering: the groups are contiguous blocks, so
concatenating them in key order reproduces the stream order and numbers
the runs `1, 2, ...`. -/
theorem groupCat_eq_renumber : ∀ pairs : List (ℕ × String),
    List.Sorted (fun a b : ℕ × String => a.1 ≤ b.1) pairs →
    groupCat pairs = renumber pairs := by
  intro pairs
  induction pairs with
  | nil => intro _; rfl
  | cons p ps ih =>
    intro hsorted
    have hall : ∀ q ∈ ps, p.1 ≤ q.1 := (List.sorted_cons.mp hsorted).1
    have hsps : List.Sorted (fun a b : ℕ × String => a.1 ≤ b.1) ps :=
      (List.sorted_cons.mp hsorted).2
    cases ps with
    | nil =>
      show concatGroups [p] 1 (dedupAdj ([p].map (·.1))) = renumber [p]
      simp [dedupAdj, concatGroups, renumber, renumAux, List.filter_cons]
    | cons q qs =>
      have hq1 : p.1 ≤ q.1 := hall q (List.mem_cons_self q qs)
      have hqsb : ∀ b ∈ qs, q.1 ≤ b.1 := (List.sorted_cons.mp hsps).1
      have hqs_ids : ∀ x ∈ qs.map (·.1), q.1 ≤ x := by
        intro x hx
        obtain ⟨b, hb, rfl⟩ := List.mem_map.mp hx
        exact hqsb b hb
      have hqs_sorted : List.Sorted (· ≤ ·) (qs.map (·.1)) :=
        List.Pairwise.map _ (fun a b hab => hab) (List.sorted_cons.mp hsps).2
      obtain ⟨rk, hkeysps, hrk⟩ := dedupAdj_head (qs.map (·.1)) q.1 hqs_ids hqs_sorted
      have hkeysps2 : dedupAdj ((q :: qs).map (·.1)) = q.1 :: rk := by
        simpa using hkeysps
      have hgroupqs : groupCat (q :: qs) = concatGroups (q :: qs) 1 (q.1 :: rk) := by
        unfold groupCat
        rw [hkeysps2]
      by_cases hpq : p.1 = q.1
      · have hbeq : (p.1 == q.1) = true := beq_iff_eq.mpr hpq
        have hkeys : dedupAdj ((p :: q :: qs).map (·.1)) = q.1 :: rk := by
          simp only [List.map_cons]
          show dedupAdj (p.1 :: q.1 :: qs.map (·.1)) = q.1 :: rk
          simp only [dedupAdj, hbeq, if_true]
          simpa using hkeysps
        unfold groupCat
        rw [hkeys]
        show (List.filter (fun r => r.1 == q.1) (p :: q :: qs)).map (fun r => (1, r.2))
            ++ concatGroups (p :: q :: qs) 2 rk = renumber (p :: q :: qs)
        rw [List.filter_cons, hbeq]
        simp only [if_true]
        rw [concatGroups_drop_head rk (q :: qs) p 2
          (fun key hk => by rw [hpq]; exact ne_of_lt (hrk key hk))]
        rw [List.map_cons, List.cons_append]
        have htail : (List.filter (fun r => r.1 == q.1) (q :: qs)).map (fun r => (1, r.2))
            ++ concatGroups (q :: qs) 2 rk = concatGroups (q :: qs) 1 (q.1 :: rk) := rfl
        rw [htail, ← hgroupqs, ih hsps]
        have hqp : (q.1 == p.1) = true := beq_iff_eq.mpr hpq.symm
        show (1, p.2) :: renumber (q :: qs) = renumber (p :: q :: qs)
        simp only [renumber, renumAux, hqp, if_true]
        rw [hpq]
      · have hlt : p.1 < q.1 := lt_of_le_of_ne hq1 hpq
        have hbeq : (p.1 == q.1) = false := beq_eq_false_iff_ne.mpr hpq
        have hkeys : dedupAdj ((p :: q :: qs).map (·.1)) = p.1 :: q.1 :: rk := by
          simp only [List.map_cons]
          show dedupAdj (p.1 :: q.1 :: qs.map (·.1)) = p.1 :: q.1 :: rk
          simp only [dedupAdj, hbeq, Bool.false_eq_true, if_false]
          simpa using hkeysps
        unfold groupCat
        rw [hkeys]
        show (List.filter (fun r => r.1 == p.1) (p :: q :: qs)).map (fun r => (1, r.2))
            ++ concatGroups (p :: q :: qs) 2 (q.1 :: rk) = renumber (p :: q :: qs)
        have hself : (p.1 == p.1) = true := beq_iff_eq.mpr rfl
        have hnofilter : List.filter (fun r => r.1 == p.1) (q :: qs) = [] := by
          rw [List.filter_eq_nil]
          intro r hr
          have hge : q.1 ≤ r.1 := by
            rcases List.mem_cons.mp hr with h | h
            · rw [h]
            · exact hqsb r h
          simp only [beq_iff_eq]
          omega
        rw [List.filter_cons, hself]
        simp only [if_true]
        rw [hnofilter]
        rw [concatGroups_drop_head (q.1 :: rk) (q :: qs) p 2
          (fun key hk => by
            rcases List.mem_cons.mp hk with h | h
            · omega
            · have := hrk key h; omega)]
        have hshift := concatGroups_shift (q.1 :: rk) (q :: qs) 1
        rw [hshift, ← hgroupqs, ih hsps]
        have hqp : (q.1 == p.1) = false := beq_eq_false_iff_ne.mpr (fun h => hpq h.symm)
        show ((1, p.2) :: []) ++ (renumber (q :: qs)).map (fun r => (r.1 + 1, r.2))
            = renumber (p :: q :: qs)
        simp only [renumber, renumAux, hqp, Bool.false_eq_true, if_false,
          List.map_cons, List.cons_append, List.nil_append]
        rw [← renumAux_shift]

/-- Run renumbering of the single-pass partition agrees with the
maximal-run trial numbering, given consistent counters. -/
theorem renumAux_pairsAux : ∀ (ls : List (Option String)) (cnt cur k : ℕ) (prevB : Bool),
    (prevB = false → k = cur) → (prevB = true → k ≤ cur) →
    renumAux cnt k (pairsAux prevB cur ls) = specTrialsAux cnt prevB ls := by
  intro ls
  induction ls with
  | nil => intro cnt cur k prevB _ _; rfl
  | cons l ls ih =>
    intro cnt cur k prevB hf ht
    cases l with
    | none =>
      cases prevB with
      | true =>
        simp only [pairsAux, specTrialsAux, if_true]
        exact ih cnt cur k true (fun h => absurd h (by decide)) (fun _ => ht rfl)
      | false =>
        have hk : k = cur := hf rfl
        simp only [pairsAux, specTrialsAux, Bool.false_eq_true, if_false]
        exact ih cnt (cur + 1) k true (fun h => absurd h (by decide)) (fun _ => by omega)
    | some s =>
      cases prevB with
      | true =>
        have hk : k ≤ cur := ht rfl
        have hbeq : (cur + 1 == k) = false := beq_eq_false_iff_ne.mpr (by omega)
        simp only [pairsAux, specTrialsAux, if_true]
        simp only [renumAux, hbeq, Bool.false_eq_true, if_false]
        exact congrArg (List.cons _)
          (ih (cnt + 1) (cur + 1) (cur + 1) false (fun _ => rfl) (fun h => absurd h (by decide)))
      | false =>
        have hk : k = cur := hf rfl
        have hbeq : (cur == k) = true := beq_iff_eq.mpr hk.symm
        simp only [pairsAux, specTrialsAux, Bool.false_eq_true, if_false]
        simp only [renumAux, hbeq, if_true]
        exact congrArg (List.cons _)
          (ih cnt cur k false (fun _ => hk) (fun h => absurd h (by decide)))

/-- The trial tagging computed by the encoding `get_trial_events`
(partition-ids + groupby + concat) equals the maximal-run numbering. -/
theorem codeTrials_eq_specTrials (ls : List (Option String)) :
    codeTrials ls = specTrials ls := by
  unfold codeTrials specTrials
  rw [pairsOf_eq_pairsOfR]
  cases ls with
  | nil => rfl
  | cons l ls =>
    cases l with
    | none =>
      show groupCat (pairsAux true 1 ls) = specTrialsAux 0 true (none :: ls)
      rw [groupCat_eq_renumber _ (pairsAux_sorted ls true 1).2]
      have hrn : renumber (pairsAux true 1 ls) = renumAux 0 0 (pairsAux true 1 ls) := by
        cases hp : pairsAux true 1 ls with
        | nil => rfl
        | cons p ps =>
          have h1 : 1 ≤ p.1 := by
            refine (pairsAux_sorted ls true 1).1 p ?_
            rw [hp]
            exact List.mem_cons_self p ps
          have hbeq : (p.1 == 0) = false := beq_eq_false_iff_ne.mpr (by omega)
          simp only [renumber, renumAux, hbeq, Bool.false_eq_true, if_false]
      rw [hrn, renumAux_pairsAux ls 0 1 0 true (fun h => absurd h (by decide)) (fun _ => by omega)]
      rfl
    | some s =>
      show groupCat ((1, s) :: pairsAux false 1 ls) = specTrialsAux 0 true (some s :: ls)
      have hsorted : List.Sorted (fun a b : ℕ × String => a.1 ≤ b.1)
          ((1, s) :: pairsAux false 1 ls) :=
        List.sorted_cons.mpr ⟨fun b hb => (pairsAux_sorted ls false 1).1 b hb,
          (pairsAux_sorted ls false 1).2⟩
      rw [groupCat_eq_renumber _ hsorted]
      show (1, s) :: renumAux 1 1 (pairsAux false 1 ls) = specTrialsAux 0 true (some s :: ls)
      rw [renumAux_pairsAux ls 1 1 1 false (fun _ => rfl) (fun h => absurd h (by decide))]
      simp [specTrialsAux]

/-- Substring test (`pandas .str.contains` with a plain-text pattern):
some suffix of `s` starts with `pat`. -/
def strContains (s pat : String) : Bool :=
  (List.range (s.length + 1)).any (fun i => pat.toList.isPrefixOf (s.toList.drop i))

/-- The row filter of `clean_trials` line 54:
`(CurrentObject=='Ready')|(CurrentObject.str.contains('PlayWord'))`. -/
def keepEnc (l : String) : Bool :=
  (l == "Ready") || strContains l "PlayWord"

/-- `strContains` decides exactly the substring decompositions. -/
theorem strContains_iff (s pat : String) :
    strContains s pat = true ↔ ∃ a b : List Char, s.toList = a ++ pat.toList ++ b := by
  unfold strContains
  rw [List.any_eq_true]
  constructor
  · rintro ⟨i, _, hpre⟩
    rw [ List.isPrefixOf_iff_prefix] at hpre
    obtain ⟨b, hb⟩ := hpre
    refine ⟨s.toList.take i, b, ?_⟩
    calc s.toList = s.toList.take i ++ s.toList.drop i := (List.take_append_drop i s.toList).symm
      _ = s.toList.take i ++ (pat.toList ++ b) := by rw [hb]
      _ = s.toList.take i ++ pat.toList ++ b := by rw [List.append_assoc]
  · rintro ⟨a, b, hab⟩
    refine ⟨a.length, ?_, ?_⟩
    · rw [List.mem_range]
      have hlen : s.toList.length = a.length + (pat.toList.length + b.length) := by
        rw [hab]
        simp [List.length_append]
      have hlen2 : s.toList.length = s.length := by
        rfl
      omega
    · rw [ List.isPrefixOf_iff_prefix, hab, List.append_assoc, List.drop_left]
      exact List.prefix_append pat.toList b

/-- C4.  For the word-list-encoding segmentation: (1) the trial tagging
produced by `get_trial_events` (null-partition + groupby + relabelled
concatenation) assigns to every non-empty-labelled row the index of its
maximal run of consecutive non-empty labels, numbering trials `1, 2, ...`
in stream order with no assumption on the total count; and (2) the
`clean_trials` row filter retains a row within a trial exactly when its
label is `"Ready"` or has `"PlayWord"` as a substring. -/
theorem c4_encoding_trials :
    (∀ labels : List (Option String), codeTrials labels = specTrials labels) ∧
    (∀ l : String, keepEnc l = true ↔
      (l = "Ready" ∨ ∃ a b : List Char, l.toList = a ++ "PlayWord".toList ++ b)) := by
  constructor
  · exact codeTrials_eq_specTrials
  · intro l
    unfold keepEnc
    rw [Bool.or_eq_true, beq_iff_eq, strContains_iff]

/-! ### Baseline and dilation (`clean_trials`)

The cores below embed the post-resampling part of `clean_trials`:
encoding lines 59-63 and recall lines 61-65.  The upstream
`pupil_utils.deblink` / `pupil_utils.resamp_filt_data` collaborators are not
part of this repository's sources; the cores take their output — a
conditioned trial series with a filtered diameter column
(`DiameterPupilLRFilt`, possibly `NaN`) and a string column (`CurrentObject`
for encoding, `Phase` for recall) — as input. -/

/-- A conditioned encoding-trial sample: time, filtered diameter, event
label. -/
structure ESamp where
  t : ℤ
  diam : Option ℚ
  label : Option String
deriving DecidableEq

/-- An output row of the encoding `clean_trials`: the input columns plus the
`Baseline` and `Dilation` columns. -/
structure EOut where
  t : ℤ
  diam : Option ℚ
  label : Option String
  baseline : Option ℚ
  dilation : Option ℚ
deriving DecidableEq

/-- Encoding baseline (line 59):
`trial_resamp.loc[CurrentObject=="Ready","DiameterPupilLRFilt"].last("500ms").mean()` —
mean of the filtered diameter over the final 500ms of the `"Ready"` rows
(pandas `.last(off)` selects indexes strictly greater than `end - off`, and
returns the empty frame unchanged when it is empty). -/
def encodingBaseline (tr : List ESamp) : Option ℚ :=
  let ready := tr.filter (fun r => r.label == some "Ready")
  match ready.getLast? with
  | none => none
  | some lastR => optMean ((ready.filter (fun r => decide (lastR.t - 500 < r.t))).map (·.diam))

/-- `str.match("PlayWord")` (line 62): the label matches the pattern at its
start; a missing label never matches. -/
def matchPW (l : Option String) : Bool :=
  match l with
  | some s => "PlayWord".toList.isPrefixOf s.toList
  | none => false

/-- Encoding `clean_trials` core (lines 59-63): attach the constant
`Baseline` column, compute `Dilation = DiameterPupilLRFilt - Baseline`,
keep only the rows whose label matches `"PlayWord"`, and rebase the index
to start at the first kept row.  (On a trial with no kept row pandas would
raise an `IndexError` at the rebasing; this is modelled as the empty
output, a case no claim depends on.) -/
def encodingCleanCore (tr : List ESamp) : List EOut :=
  match ((tr.map (fun r => EOut.mk r.t r.diam r.label (encodingBaseline tr)
      (osub r.diam (encodingBaseline tr)))).filter (fun r => matchPW r.label)).head? with
  | none => []
  | some r0 =>
    ((tr.map (fun r => EOut.mk r.t r.diam r.label (encodingBaseline tr)
        (osub r.diam (encodingBaseline tr)))).filter (fun r => matchPW r.label)).map
      (fun r => { r with t := r.t - r0.t })

/-- A conditioned recall-trial sample: time, filtered diameter, phase
label. -/
structure RSamp where
  t : ℤ
  diam : Option ℚ
  phase : Option String
deriving DecidableEq

/-- An output row of the recall `clean_trials`. -/
structure ROut where
  t : ℤ
  diam : Option ℚ
  phase : Option String
  baseline : Option ℚ
  dilation : Option ℚ
deriving DecidableEq

/-- Recall baseline (line 61):
`trial_resamp['DiameterPupilLRFilt'].first('2000ms').mean()` — mean of the
filtered diameter over the leading 2000ms slice of the trial (pandas
`.first(off)` selects indexes strictly less than `start + off`). -/
def recallBaseline (tr : List RSamp) : Option ℚ :=
  match tr.head? with
  | none => none
  | some r0 => optMean ((tr.filter (fun r => decide (r.t < r0.t + 2000))).map (·.diam))

/-- Recall `clean_trials` core (lines 61-65): attach the constant `Baseline`
column, compute `Dilation = DiameterPupilLRFilt - Baseline`, and keep only
the `Phase == 'Response'` rows. -/
def recallCleanCore (tr : List RSamp) : List ROut :=
  (tr.map (fun r => ROut.mk r.t r.diam r.phase (recallBaseline tr)
      (osub r.diam (recallBaseline tr)))).filter (fun r => r.phase == some "Response")

/-- C5.  For every conditioned trial: every row of the final dilation
output carries the per-trial constant baseline (encoding: mean filtered
diameter over the last 500ms of the `"Ready"` baseline phase; recall: mean
filtered diameter over the leading 2000ms slice) and a dilation equal to
the filtered diameter minus that baseline; only Response-phase rows
(encoding: labels matching `"PlayWord"`; recall: `Phase == "Response"`)
survive — Baseline-phase rows are dropped — and every Response-phase row
survives (output length equals the Response-row count). -/
theorem c5_baseline_dilation :
    (∀ (tr : List ESamp) (r : EOut), r ∈ encodingCleanCore tr →
        matchPW r.label = true ∧ r.label ≠ some "Ready" ∧
        r.baseline = encodingBaseline tr ∧
        r.dilation = osub r.diam (encodingBaseline tr)) ∧
    (∀ tr : List ESamp,
        (encodingCleanCore tr).length = (tr.filter (fun s => matchPW s.label)).length) ∧
    (∀ (tr : List RSamp) (r : ROut), r ∈ recallCleanCore tr →
        r.phase = some "Response" ∧ r.phase ≠ some "Baseline" ∧
        r.baseline = recallBaseline tr ∧
        r.dilation = osub r.diam (recallBaseline tr)) ∧
    (∀ tr : List RSamp,
        (recallCleanCore tr).length = (tr.filter (fun s => s.phase == some "Response")).length) := by
  refine ⟨?_, ?_, ?_, ?_⟩
  · intro tr r hr
    unfold encodingCleanCore at hr
    rcases hkept : ((tr.map (fun s => EOut.mk s.t s.diam s.label (encodingBaseline tr)
        (osub s.diam (encodingBaseline tr)))).filter (fun r2 => matchPW r2.label)).head? with
      _ | ⟨r0⟩
    · rw [hkept] at hr
      cases hr
    · rw [hkept] at hr
      simp only [List.mem_map] at hr
      obtain ⟨r1, hr1, hshift⟩ := hr
      have hr1f := List.mem_filter.mp hr1
      obtain ⟨s, _, henr⟩ := List.mem_map.mp hr1f.1
      have hlab : r.label = r1.label := by rw [← hshift]
      have hbas : r.baseline = r1.baseline := by rw [← hshift]
      have hdil : r.dilation = r1.dilation := by rw [← hshift]
      have hdia : r.diam = r1.diam := by rw [← hshift]
      have hmatch : matchPW r.label = true := by
        rw [hlab]
        exact hr1f.2
      refine ⟨hmatch, ?_, ?_, ?_⟩
      · intro hready
        rw [hready] at hmatch
        exact absurd hmatch (by decide)
      · rw [hbas, ← henr]
      · rw [hdil, hdia, ← henr]
  · intro tr
    have hcore : (encodingCleanCore tr).length
        = ((tr.map (fun s => EOut.mk s.t s.diam s.label (encodingBaseline tr)
            (osub s.diam (encodingBaseline tr)))).filter (fun r2 => matchPW r2.label)).length := by
      unfold encodingCleanCore
      rcases hkept : ((tr.map (fun s => EOut.mk s.t s.diam s.label (encodingBaseline tr)
          (osub s.diam (encodingBaseline tr)))).filter (fun r2 => matchPW r2.label)).head? with
        _ | ⟨r0⟩
      · rw [hkept, List.head?_eq_none_iff.mp hkept]
      · rw [hkept]
        rw [List.length_map]
    rw [hcore, ← List.countP_eq_length_filter, List.countP_map,
      ← List.countP_eq_length_filter]
    rfl
  · intro tr r hr
    unfold recallCleanCore at hr
    have hrf := List.mem_filter.mp hr
    obtain ⟨s, _, henr⟩ := List.mem_map.mp hrf.1
    have hresp : (r.phase == some "Response") = true := hrf.2
    rw [beq_iff_eq] at hresp
    refine ⟨hresp, ?_, ?_, ?_⟩
    · rw [hresp]
      intro h
      exact absurd h (by decide)
    · rw [← henr]
    · rw [← henr]
  · intro tr
    unfold recallCleanCore
    rw [← List.countP_eq_length_filter, List.countP_map,
      ← List.countP_eq_length_filter]
    rfl

/-- C5, witness: a two-row conditioned trial for each task. -/
theorem c5_witness :
    ((⟨0, some 7, some "PlayWord2", none, none⟩ : EOut)
        ∈ encodingCleanCore [⟨0, none, some "Ready"⟩, ⟨200, some 7, some "PlayWord2"⟩] ∧
      (matchPW (some "PlayWord2") = true ∧ some "PlayWord2" ≠ some "Ready" ∧
        (none : Option ℚ)
          = encodingBaseline [⟨0, none, some "Ready"⟩, ⟨200, some 7, some "PlayWord2"⟩] ∧
        (none : Option ℚ) = osub (some 7)
          (encodingBaseline [⟨0, none, some "Ready"⟩, ⟨200, some 7, some "PlayWord2"⟩]))) ∧
    ((⟨2500, some 4, some "Response", none, none⟩ : ROut)
        ∈ recallCleanCore [⟨0, none, some "Baseline"⟩, ⟨2500, some 4, some "Response"⟩] ∧
      (some "Response" = some "Response" ∧ some "Response" ≠ some "Baseline" ∧
        (none : Option ℚ)
          = recallBaseline [⟨0, none, some "Baseline"⟩, ⟨2500, some 4, some "Response"⟩] ∧
        (none : Option ℚ) = osub (some 4)
          (recallBaseline [⟨0, none, some "Baseline"⟩, ⟨2500, some 4, some "Response"⟩]))) :=
  ⟨⟨by decide,
      by
        have h := c5_baseline_dilation.1
          [⟨0, none, some "Ready"⟩, ⟨200, some 7, some "PlayWord2"⟩]
          ⟨0, some 7, some "PlayWord2", none, none⟩ (by decide)
        exact h⟩,
    ⟨by decide,
      by
        have h := c5_baseline_dilation.2.2.1
          [⟨0, none, some "Baseline"⟩, ⟨2500, some 4, some "Response"⟩]
          ⟨2500, some 4, some "Response", none, none⟩ (by decide)
        exact h⟩⟩

/-- C3, evaluation at the failing input.  An encoding trial whose baseline
window (the `"Ready"` rows) has no valid diameter after conditioning:
`clean_trials` computes `baseline = NaN` (mean of an empty window) and
keeps the trial's Response rows in the output with `NaN` baseline and
`NaN` dilation — the trial is neither flagged nor excluded. -/
theorem c3_nan_baseline_propagates :
    encodingBaseline [⟨0, none, some "Ready"⟩, ⟨100, some 6, some "PlayWord1"⟩] = none ∧
    encodingCleanCore [⟨0, none, some "Ready"⟩, ⟨100, some 6, some "PlayWord1"⟩] ≠ [] ∧
    ∀ r ∈ encodingCleanCore [⟨0, none, some "Ready"⟩, ⟨100, some 6, some "PlayWord1"⟩],
      r.baseline = none ∧ r.dilation = none := by
  refine ⟨by decide, by decide, by decide⟩

/-! ### Fluency / recall trial-event extraction (`get_trial_events`)

Both scripts detect boundary rows where the event label changes
(`CurrentObject.ne(CurrentObject.shift().ffill())` for starts,
`...shift(-1).bfill()` for stops), keep starts labelled
`ReadLetter`/`RecordLetter` and stops labelled `BeginFile`/`RecordLetter`,
assign phases positionally (`np.tile(['Baseline','Response'], 6)`, which
requires exactly 12 rows on each side), merge by the original row index
(`append(...).sort_index()`, a stable sort that keeps a start before a stop
sharing a row index), and assign `Trial = np.repeat(range(1,7), 4)` and
`Condition = np.repeat(['Letter','Category'], 12)` positionally. -/

/-- A raw session row: timestamp (ms) and event label. -/
structure FRow where
  tettime : ℤ
  currentObject : Option String
deriving DecidableEq

/-- pandas `.ne` on label columns: `NaN` compares unequal to everything,
including another `NaN`. -/
def neP (a b : Option String) : Bool :=
  match a, b with
  | some x, some y => x != y
  | _, _ => true

/-- Forward fill of the shifted label column: entry `i` is the last
non-null label strictly before row `i` (`acc` seeds the fill). -/
def prevFFAux (acc : Option String) : List (Option String) → List (Option String)
  | [] => []
  | l :: ls => acc :: prevFFAux (match l with | some s => some s | none => acc) ls

/-- `CurrentObject.shift().ffill()`. -/
def prevFF (ls : List (Option String)) : List (Option String) := prevFFAux none ls

/-- `CurrentObject.shift(-1).bfill()`: entry `i` is the first non-null
label strictly after row `i`. -/
def nextBF (ls : List (Option String)) : List (Option String) :=
  (prevFFAux none ls.reverse).reverse

/-- `startidx`: the label differs from the forward-filled previous label. -/
def startFlags (ls : List (Option String)) : List Bool :=
  List.zipWith neP ls (prevFF ls)

/-- `stopidx`: the label differs from the backward-filled next label. -/
def stopFlags (ls : List (Option String)) : List Bool :=
  List.zipWith neP ls (nextBF ls)

/-- A detected boundary row: original row index, timestamp, label. -/
structure BRow where
  idx : ℕ
  t : ℤ
  label : String
deriving DecidableEq

/-- Select the flagged rows whose label is one of `labs`, remembering the
original row index (`df.loc[flags, ['TETTime','CurrentObject']]` followed
by the label filter; a null label never passes the label filter). -/
def selectBoundary (labs : List String) : ℕ → List (FRow × Bool) → List BRow
  | _, [] => []
  | i, (r, flag) :: rest =>
    (match r.currentObject with
     | some s => if flag && labs.contains s then [⟨i, r.tettime, s⟩] else []
     | none => []) ++ selectBoundary labs (i + 1) rest

/-- The start-boundary table (before phase tagging). -/
def fluStarts (df : List FRow) : List BRow :=
  selectBoundary ["ReadLetter", "RecordLetter"] 0
    (df.zip (startFlags (df.map (·.currentObject))))

/-- The stop-boundary table (before phase tagging). -/
def fluStops (df : List FRow) : List BRow :=
  selectBoundary ["BeginFile", "RecordLetter"] 0
    (df.zip (stopFlags (df.map (·.currentObject))))

/-- A tagged boundary event (phase and start/stop marker columns added). -/
structure BEv where
  idx : ℕ
  t : ℤ
  label : String
  phase : String
  ss : String
deriving DecidableEq

/-- `np.tile(['Baseline','Response'], n)`. -/
def tileBR : ℕ → List String
  | 0 => []
  | n + 1 => "Baseline" :: "Response" :: tileBR n

/-- Positional phase tagging plus the start/stop marker column. -/
def tagEvents (ss : String) (bs : List BRow) (phases : List String) : List BEv :=
  List.zipWith (fun b ph => BEv.mk b.idx b.t b.label ph ss) bs phases

/-- Stable merge by original row index (`append` + `sort_index()`): rows of
the second table move before a first-table row only when their index is
strictly smaller, so a start precedes a stop sharing its row index. -/
def mergeAux {α : Type} (idx : α → ℕ) : List α → List α → List α
  | [], ys => ys
  | x :: xs, ys =>
    ys.takeWhile (fun y => decide (idx y < idx x))
      ++ x :: mergeAux idx xs (ys.dropWhile (fun y => decide (idx y < idx x)))

/-- Perfect interleaving of two lists. -/
def weave {α : Type} : List α → List α → List α
  | [], ys => ys
  | x :: xs, [] => x :: xs
  | x :: xs, y :: ys => x :: y :: weave xs ys

/-- `np.repeat(range(1, 7), 4)` / `np.repeat(['Letter','Category'], 12)`
combined: the positional trial/condition assignment. -/
def repeatEach {α : Type} (n : ℕ) : List α → List α
  | [] => []
  | a :: as => List.replicate n a ++ repeatEach n as

/-- The positional `(Trial, Condition)` columns. -/
def trialCondSeq : List (ℕ × String) :=
  (repeatEach 4 [1, 2, 3, 4, 5, 6]).zip (repeatEach 12 ["Letter", "Category"])

/-- A full fluency trial-event row. -/
structure FEv where
  idx : ℕ
  t : ℤ
  label : String
  phase : String
  ss : String
  trial : ℕ
  cond : String
deriving DecidableEq

/-- Embedding of the fluency `get_trial_events` (lines 64-79).  The
positional assignments `np.tile(['Baseline','Response'], 6)` raise a
`ValueError` unless there are exactly 12 start rows and 12 stop rows. -/
def fluencyGetTrialEvents (df : List FRow) : Except String (List FEv) :=
  if (fluStarts df).length = 12 ∧ (fluStops df).length = 12 then
    Except.ok (List.zipWith
      (fun e tc => FEv.mk e.idx e.t e.label e.phase e.ss tc.1 tc.2)
      (mergeAux (·.idx) (tagEvents "Start" (fluStarts df) (tileBR 6))
        (tagEvents "Stop" (fluStops df) (tileBR 6)))
      trialCondSeq)
  else Except.error "ValueError: Length of values does not match length of index"

/-- A full recall trial-event row.  The recall script writes the start
markers to a misspelled `StatStop` column (line 91), so in its table the
`StartStop` column is only populated on stop rows. -/
structure REv where
  idx : ℕ
  t : ℤ
  label : String
  phase : String
  statStop : Option String
  startStop : Option String
  trial : ℕ
  cond : String
deriving DecidableEq

/-- Embedding of the recall `get_trial_events` (lines 82-97): identical to
the fluency one except that start rows carry `StatStop = 'Start'` and a
missing `StartStop`, while stop rows carry `StartStop = 'Stop'` and a
missing `StatStop`. -/
def recallGetTrialEvents (df : List FRow) : Except String (List REv) :=
  if (fluStarts df).length = 12 ∧ (fluStops df).length = 12 then
    Except.ok (List.zipWith
      (fun e tc => REv.mk e.1.idx e.1.t e.1.label e.1.phase e.2.1 e.2.2 tc.1 tc.2)
      (mergeAux (fun e => e.1.idx)
        ((tagEvents "Start" (fluStarts df) (tileBR 6)).map
          (fun e => (e, (some "Start", (none : Option String)))))
        ((tagEvents "Stop" (fluStops df) (tileBR 6)).map
          (fun e => (e, ((none : Option String), some "Stop")))))
      trialCondSeq)
  else Except.error "ValueError: Length of values does not match length of index"

/-- Mapping over a `zipWith` factors through projections of both sides. -/
theorem map_zipWith_pair {α β γ δ ε ζ : Type} (f : α → β → γ) (h : γ → δ)
    (pa : α → ε) (pb : β → ζ) (g : ε → ζ → δ)
    (hfact : ∀ a b, h (f a b) = g (pa a) (pb b)) :
    ∀ (as : List α) (bs : List β),
      (List.zipWith f as bs).map h = List.zipWith g (as.map pa) (bs.map pb) := by
  intro as
  induction as with
  | nil => intro bs; rfl
  | cons a as ih =>
    intro bs
    cases bs with
    | nil => rfl
    | cons b bs =>
      simp only [List.zipWith_cons_cons, List.map_cons, hfact, ih]

/-- `zipWith` with the left projection returns the left list when lengths
agree. -/
theorem zipWith_left_eq {α β : Type} :
    ∀ (as : List α) (bs : List β), as.length = bs.length →
      List.zipWith (fun a _ => a) as bs = as := by
  intro as
  induction as with
  | nil => intro bs _; rfl
  | cons a as ih =>
    intro bs hlen
    cases bs with
    | nil => simp at hlen
    | cons b bs =>
      simp only [List.zipWith_cons_cons]
      rw [ih bs (by simpa using hlen)]

/-- `zipWith` with the right projection returns the right list when lengths
agree. -/
theorem zipWith_right_eq {α β : Type} :
    ∀ (as : List α) (bs : List β), as.length = bs.length →
      List.zipWith (fun _ b => b) as bs = bs := by
  intro as
  induction as with
  | nil =>
    intro bs hlen
    cases bs with
    | nil => rfl
    | cons b bs => simp at hlen
  | cons a as ih =>
    intro bs hlen
    cases bs with
    | nil => simp at hlen
    | cons b bs =>
      simp only [List.zipWith_cons_cons]
      rw [ih bs (by simpa using hlen)]

/-- Mapping commutes with weaving. -/
theorem weave_map {α β : Type} (f : α → β) :
    ∀ as bs : List α, (weave as bs).map f = weave (as.map f) (bs.map f) := by
  intro as
  induction as with
  | nil => intro bs; rfl
  | cons x xs ih =>
    intro bs
    cases bs with
    | nil => rfl
    | cons y ys =>
      show f x :: f y :: (weave xs ys).map f = _
      rw [ih ys]
      rfl

/-- Every element of a weave comes from one of the two lists. -/
theorem weave_mem {α : Type} :
    ∀ (as bs : List α) (x : α), x ∈ weave as bs → x ∈ as ∨ x ∈ bs := by
  intro as
  induction as with
  | nil => intro bs x hx; exact Or.inr hx
  | cons a as ih =>
    intro bs x hx
    cases bs with
    | nil => exact Or.inl hx
    | cons b bs =>
      rcases List.mem_cons.mp hx with h | hx2
      · exact Or.inl (h ▸ List.mem_cons_self a as)
      · rcases List.mem_cons.mp hx2 with h | hx3
        · exact Or.inr (h ▸ List.mem_cons_self b bs)
        · rcases ih bs x hx3 with h | h
          · exact Or.inl (List.mem_cons_of_mem a h)
          · exact Or.inr (List.mem_cons_of_mem b h)

/-- The stable merge emits all rows of both tables. -/
theorem mergeAux_length {α : Type} (idx : α → ℕ) :
    ∀ as bs : List α, (mergeAux idx as bs).length = as.length + bs.length := by
  intro as
  induction as with
  | nil => intro bs; simp [mergeAux]
  | cons x xs ih =>
    intro bs
    have hsplit := congrArg List.length
      (List.takeWhile_append_dropWhile (fun y => decide (idx y < idx x)) bs)
    rw [List.length_append] at hsplit
    show ((bs.takeWhile (fun y => decide (idx y < idx x)))
        ++ x :: mergeAux idx xs (bs.dropWhile (fun y => decide (idx y < idx x)))).length
      = (x :: xs).length + bs.length
    rw [List.length_append, List.length_cons, ih]
    simp only [List.length_cons]
    omega

/-- On strictly index-interleaved tables of equal length, the stable merge
is the perfect interleaving. -/
theorem mergeAux_eq_weave {α : Type} (idx : α → ℕ) :
    ∀ (as bs : List α), as.length = bs.length →
      List.Chain' (· < ·) ((weave as bs).map idx) →
      mergeAux idx as bs = weave as bs := by
  intro as
  induction as with
  | nil =>
    intro bs _ _
    cases bs with
    | nil => rfl
    | cons b bs => rfl
  | cons x xs ih =>
    intro bs hlen hch
    cases bs with
    | nil => simp at hlen
    | cons y ys =>
      have hxy : idx x < idx y := by
        have h0 : List.Chain' (· < ·) (idx x :: idx y :: (weave xs ys).map idx) := hch
        exact (List.chain'_cons.mp h0).1
      have hchtail : List.Chain' (· < ·) (idx y :: (weave xs ys).map idx) := by
        have h0 : List.Chain' (· < ·) (idx x :: idx y :: (weave xs ys).map idx) := hch
        exact (List.chain'_cons.mp h0).2
      have hstep1 : mergeAux idx (x :: xs) (y :: ys) = x :: mergeAux idx xs (y :: ys) := by
        show (y :: ys).takeWhile (fun z => decide (idx z < idx x))
            ++ x :: mergeAux idx xs ((y :: ys).dropWhile (fun z => decide (idx z < idx x))) = _
        have hd : (decide (idx y < idx x)) = false :=
          decide_eq_false (not_lt.mpr (le_of_lt hxy))
        rw [List.takeWhile_cons, List.dropWhile_cons, hd]
        simp
      have hstep2 : mergeAux idx xs (y :: ys) = y :: mergeAux idx xs ys := by
        cases xs with
        | nil => rfl
        | cons x2 xs2 =>
          have hyx2 : idx y < idx x2 := by
            cases ys with
            | nil => exact (List.chain'_cons.mp hchtail).1
            | cons y2 ys2 => exact (List.chain'_cons.mp hchtail).1
          have hdy : (decide (idx y < idx x2)) = true := decide_eq_true hyx2
          show (y :: ys).takeWhile (fun z => decide (idx z < idx x2))
              ++ x2 :: mergeAux idx xs2 ((y :: ys).dropWhile (fun z => decide (idx z < idx x2)))
            = y :: (ys.takeWhile (fun z => decide (idx z < idx x2))
              ++ x2 :: mergeAux idx xs2 (ys.dropWhile (fun z => decide (idx z < idx x2))))
          rw [List.takeWhile_cons, List.dropWhile_cons, hdy]
          cases ys with
          | nil => simp
          | cons y2 ys2 =>
            have h3 : List.Chain' (· < ·)
                (idx y :: idx x2 :: idx y2 :: (weave xs2 ys2).map idx) := hchtail
            have hx2y2 : idx x2 < idx y2 :=
              (List.chain'_cons.mp (List.chain'_cons.mp h3).2).1
            have hd2 : (decide (idx y2 < idx x2)) = false :=
              decide_eq_false (not_lt.mpr (le_of_lt hx2y2))
            rw [List.takeWhile_cons, List.dropWhile_cons, hd2]
            simp
      rw [hstep1, hstep2]
      have hchtail2 : List.Chain' (· < ·) ((weave xs ys).map idx) := hchtail.tail
      rw [ih ys (by simpa using hlen) hchtail2]
      rfl

/-- Every selected boundary row records the index and timestamp of an
actual input row. -/
theorem selectBoundary_mem (labs : List String) :
    ∀ (zs : List (FRow × Bool)) (i : ℕ) (b : BRow), b ∈ selectBoundary labs i zs →
      ∃ j rf, b.idx = i + j ∧ zs.get? j = some rf ∧ rf.1.tettime = b.t := by
  intro zs
  induction zs with
  | nil =>
    intro i b hb
    simp [selectBoundary] at hb
  | cons z rest ih =>
    intro i b hb
    obtain ⟨r, flag⟩ := z
    cases hco : r.currentObject with
    | none =>
      simp only [selectBoundary, hco, List.nil_append] at hb
      obtain ⟨j, rf, hidx, hget, ht⟩ := ih (i + 1) b hb
      exact ⟨j + 1, rf, by omega, by simpa using hget, ht⟩
    | some s =>
      by_cases hif : (flag && labs.contains s) = true
      · simp only [selectBoundary, hco, hif, if_true, List.cons_append,
          List.nil_append] at hb
        rcases List.mem_cons.mp hb with hb | hb
        · refine ⟨0, (r, flag), ?_, ?_, ?_⟩
          · rw [hb]
            rfl
          · rfl
          · rw [hb]
        · obtain ⟨j, rf, hidx, hget, ht⟩ := ih (i + 1) b hb
          exact ⟨j + 1, rf, by omega, by simpa using hget, ht⟩
      · simp only [selectBoundary, hco, hif, Bool.false_eq_true, if_false,
          List.nil_append] at hb
        obtain ⟨j, rf, hidx, hget, ht⟩ := ih (i + 1) b hb
        exact ⟨j + 1, rf, by omega, by simpa using hget, ht⟩

/-- Looking up a zipped list projects to a lookup in the left list. -/
theorem zip_get?_left {α β : Type} :
    ∀ (l1 : List α) (l2 : List β) (j : ℕ) (a : α) (b : β),
      (l1.zip l2).get? j = some (a, b) → l1.get? j = some a := by
  intro l1
  induction l1 with
  | nil => intro l2 j a b h; simp [List.zip] at h
  | cons x xs ih =>
    intro l2 j a b h
    cases l2 with
    | nil => simp [List.zip] at h
    | cons y ys =>
      cases j with
      | zero =>
        simp only [List.zip_cons_cons, List.get?_cons_zero, Option.some.injEq,
          Prod.mk.injEq] at h
        simp [h.1]
      | succ j =>
        simp only [List.zip_cons_cons, List.get?_cons_succ] at h
        exact ih ys j a b h

/-- A fluency boundary row records a real df row and its timestamp. -/
theorem fluBoundary_row (df : List FRow) (b : BRow)
    (hb : b ∈ fluStarts df ∨ b ∈ fluStops df) :
    ∃ r, df.get? b.idx = some r ∧ r.tettime = b.t := by
  rcases hb with hb | hb
  · obtain ⟨j, rf, hidx, hget, ht⟩ := selectBoundary_mem _ _ 0 b hb
    have hdf : df.get? j = some rf.1 := zip_get?_left df _ j rf.1 rf.2 hget
    refine ⟨rf.1, ?_, ht⟩
    rw [hidx, Nat.zero_add]
    exact hdf
  · obtain ⟨j, rf, hidx, hget, ht⟩ := selectBoundary_mem _ _ 0 b hb
    have hdf : df.get? j = some rf.1 := zip_get?_left df _ j rf.1 rf.2 hget
    refine ⟨rf.1, ?_, ht⟩
    rw [hidx, Nat.zero_add]
    exact hdf

/-- The RawSample ordering invariant: session timestamps strictly increase
with the row index. -/
def SortedTimes (df : List FRow) : Prop :=
  List.Chain' (· < ·) (df.map (·.tettime))

/-- Rows at earlier indexes have strictly smaller timestamps. -/
theorem sortedTimes_get? {df : List FRow} (h : SortedTimes df) :
    ∀ (i j : ℕ) (ri rj : FRow), i < j → df.get? i = some ri → df.get? j = some rj →
      ri.tettime < rj.tettime := by
  have hp : List.Pairwise (fun a b : FRow => a.tettime < b.tettime) df :=
    List.pairwise_map.mp (List.chain'_iff_pairwise.mp h)
  intro i j ri rj hij hgi hgj
  obtain ⟨hi, hgi2⟩ := List.get?_eq_some.mp hgi
  obtain ⟨hj, hgj2⟩ := List.get?_eq_some.mp hgj
  have := (List.pairwise_iff_get.mp hp) ⟨i, hi⟩ ⟨j, hj⟩ hij
  rw [hgi2, hgj2] at this
  exact this

/-- A strictly increasing integer chain transfers along a monotone
reindexing of the same list. -/
theorem chain'_map_lt_mono {α : Type} :
    ∀ (l : List α) (f : α → ℕ) (g : α → ℤ),
      (∀ u v, u ∈ l → v ∈ l → f u < f v → g u < g v) →
      List.Chain' (· < ·) (l.map f) → List.Chain' (· < ·) (l.map g) := by
  intro l
  induction l with
  | nil => intro f g _ _; simp
  | cons a l ih =>
    intro f g hmono hch
    cases l with
    | nil => simp
    | cons b rest =>
      have h1 : f a < f b := (List.chain'_cons.mp hch).1
      refine List.chain'_cons.mpr ⟨hmono a b (by simp) (by simp) h1, ?_⟩
      refine ih f g
        (fun u v hu hv => hmono u v (List.mem_cons_of_mem a hu) (List.mem_cons_of_mem a hv))
        (List.chain'_cons.mp hch).2

/-- `zipWith` ignoring the right side is a map over the left. -/
theorem zipWith_left_map {α β γ : Type} (f : α → γ) :
    ∀ (as : List α) (bs : List β), as.length = bs.length →
      List.zipWith (fun a _ => f a) as bs = as.map f := by
  intro as
  induction as with
  | nil => intro bs _; rfl
  | cons a as ih =>
    intro bs hlen
    cases bs with
    | nil => simp at hlen
    | cons b bs =>
      simp only [List.zipWith_cons_cons, List.map_cons]
      rw [ih bs (by simpa using hlen)]

/-- `zipWith` ignoring the left side is a map over the right. -/
theorem zipWith_right_map {α β γ : Type} (f : β → γ) :
    ∀ (as : List α) (bs : List β), as.length = bs.length →
      List.zipWith (fun _ b => f b) as bs = bs.map f := by
  intro as
  induction as with
  | nil =>
    intro bs hlen
    cases bs with
    | nil => rfl
    | cons b bs => simp at hlen
  | cons a as ih =>
    intro bs hlen
    cases bs with
    | nil => simp at hlen
    | cons b bs =>
      simp only [List.zipWith_cons_cons, List.map_cons]
      rw [ih bs (by simpa using hlen)]

/-- Projecting tagged events to `(phase, marker)` recovers the positional
phase pattern. -/
theorem tagEvents_map_proj {δ : Type} (ss : String) (g : String → String → δ) :
    ∀ (bs : List BRow) (phases : List String), bs.length = phases.length →
      (tagEvents ss bs phases).map (fun e => g e.phase e.ss)
        = phases.map (fun ph => g ph ss) := by
  intro bs
  induction bs with
  | nil =>
    intro phases h
    cases phases with
    | nil => rfl
    | cons ph phs => simp at h
  | cons b bs ih =>
    intro phases h
    cases phases with
    | nil => simp at h
    | cons ph phs =>
      show (List.zipWith _ (b :: bs) (ph :: phs)).map _ = _
      simp only [List.zipWith_cons_cons, List.map_cons]
      have hih := ih phs (by simpa using h)
      unfold tagEvents at hih
      rw [hih]

/-- Tagged events keep the boundary row indexes. -/
theorem tagEvents_map_idx (ss : String) :
    ∀ (bs : List BRow) (phases : List String), bs.length = phases.length →
      (tagEvents ss bs phases).map (·.idx) = bs.map (·.idx) := by
  intro bs
  induction bs with
  | nil =>
    intro phases h
    cases phases with
    | nil => rfl
    | cons ph phs => simp at h
  | cons b bs ih =>
    intro phases h
    cases phases with
    | nil => simp at h
    | cons ph phs =>
      show (List.zipWith _ (b :: bs) (ph :: phs)).map _ = _
      simp only [List.zipWith_cons_cons, List.map_cons]
      have hih := ih phs (by simpa using h)
      unfold tagEvents at hih
      rw [hih]

/-- Tagged events keep the boundary row timestamps. -/
theorem tagEvents_map_t (ss : String) :
    ∀ (bs : List BRow) (phases : List String), bs.length = phases.length →
      (tagEvents ss bs phases).map (·.t) = bs.map (·.t) := by
  intro bs
  induction bs with
  | nil =>
    intro phases h
    cases phases with
    | nil => rfl
    | cons ph phs => simp at h
  | cons b bs ih =>
    intro phases h
    cases phases with
    | nil => simp at h
    | cons ph phs =>
      show (List.zipWith _ (b :: bs) (ph :: phs)).map _ = _
      simp only [List.zipWith_cons_cons, List.map_cons]
      have hih := ih phs (by simpa using h)
      unfold tagEvents at hih
      rw [hih]

/-- Weave length. -/
theorem weave_length {α : Type} :
    ∀ as bs : List α, (weave as bs).length = as.length + bs.length := by
  intro as
  induction as with
  | nil => intro bs; simp [weave]
  | cons x xs ih =>
    intro bs
    cases bs with
    | nil => simp [weave]
    | cons y ys =>
      show (x :: y :: weave xs ys).length = _
      simp only [List.length_cons, ih ys]
      omega

/-- A well-formed fluency session: exactly 12 start and 12 stop boundary
rows, interleaved start-stop-start-stop with strictly increasing row
indexes (each trial contributes a Baseline start, a Baseline stop, a
Response start and a Response stop, in stream order). -/
def WellFormedF (df : List FRow) : Prop :=
  (fluStarts df).length = 12 ∧ (fluStops df).length = 12 ∧
  List.Chain' (· < ·) ((weave (fluStarts df) (fluStops df)).map (·.idx))

/-- The trial-event table the fluency extraction builds on a well-formed
stream: the index-merge of the tagged boundary tables, with positional
trial and condition columns. -/
def fluTable (df : List FRow) : List FEv :=
  List.zipWith (fun e tc => FEv.mk e.idx e.t e.label e.phase e.ss tc.1 tc.2)
    (weave (tagEvents "Start" (fluStarts df) (tileBR 6))
      (tagEvents "Stop" (fluStops df) (tileBR 6)))
    trialCondSeq

/-- On a well-formed stream the extraction succeeds and the stable merge
is the perfect interleaving. -/
theorem fluencyOk (df : List FRow) (h : WellFormedF df) :
    fluencyGetTrialEvents df = Except.ok (fluTable df) := by
  obtain ⟨h1, h2, hch⟩ := h
  unfold fluencyGetTrialEvents fluTable
  rw [if_pos ⟨h1, h2⟩]
  have hlen : (tagEvents "Start" (fluStarts df) (tileBR 6)).length
      = (tagEvents "Stop" (fluStops df) (tileBR 6)).length := by
    unfold tagEvents
    rw [List.length_zipWith, List.length_zipWith, h1, h2]
  have hchain : List.Chain' (· < ·)
      ((weave (tagEvents "Start" (fluStarts df) (tileBR 6))
        (tagEvents "Stop" (fluStops df) (tileBR 6))).map (·.idx)) := by
    rw [weave_map, tagEvents_map_idx _ _ _ (by rw [h1]; rfl),
      tagEvents_map_idx _ _ _ (by rw [h2]; rfl), ← weave_map]
    exact hch
  rw [mergeAux_eq_weave _ _ _ hlen hchain]
/-- The expected `(Trial, TrialPhase, StartStop)` table of a well-formed
fluency session: 6 trials, each `[Baseline Start, Baseline Stop,
Response Start, Response Stop]`. -/
def fluExpectedTPS : List (ℕ × String × String) :=
  [(1, "Baseline", "Start"), (1, "Baseline", "Stop"), (1, "Response", "Start"),
   (1, "Response", "Stop"), (2, "Baseline", "Start"), (2, "Baseline", "Stop"),
   (2, "Response", "Start"), (2, "Response", "Stop"), (3, "Baseline", "Start"),
   (3, "Baseline", "Stop"), (3, "Response", "Start"), (3, "Response", "Stop"),
   (4, "Baseline", "Start"), (4, "Baseline", "Stop"), (4, "Response", "Start"),
   (4, "Response", "Stop"), (5, "Baseline", "Start"), (5, "Baseline", "Stop"),
   (5, "Response", "Start"), (5, "Response", "Stop"), (6, "Baseline", "Start"),
   (6, "Baseline", "Stop"), (6, "Response", "Start"), (6, "Response", "Stop")]

/-- The expected `(Trial, Condition, TrialPhase)` table: condition is
`Letter` for trials 1-3 and `Category` for trials 4-6, positionally. -/
def fluExpectedTCPh : List (ℕ × String × String) :=
  [(1, "Letter", "Baseline"), (1, "Letter", "Baseline"), (1, "Letter", "Response"),
   (1, "Letter", "Response"), (2, "Letter", "Baseline"), (2, "Letter", "Baseline"),
   (2, "Letter", "Response"), (2, "Letter", "Response"), (3, "Letter", "Baseline"),
   (3, "Letter", "Baseline"), (3, "Letter", "Response"), (3, "Letter", "Response"),
   (4, "Category", "Baseline"), (4, "Category", "Baseline"), (4, "Category", "Response"),
   (4, "Category", "Response"), (5, "Category", "Baseline"), (5, "Category", "Baseline"),
   (5, "Category", "Response"), (5, "Category", "Response"), (6, "Category", "Baseline"),
   (6, "Category", "Baseline"), (6, "Category", "Response"), (6, "Category", "Response")]

/-- Tagged events keep phases positionally. -/
theorem tagEvents_map_phase (ss : String) :
    ∀ (bs : List BRow) (phases : List String), bs.length = phases.length →
      (tagEvents ss bs phases).map (·.phase) = phases := by
  intro bs
  induction bs with
  | nil =>
    intro phases h
    cases phases with
    | nil => rfl
    | cons ph phs => simp at h
  | cons b bs ih =>
    intro phases h
    cases phases with
    | nil => simp at h
    | cons ph phs =>
      show (List.zipWith _ (b :: bs) (ph :: phs)).map _ = _
      simp only [List.zipWith_cons_cons, List.map_cons]
      have hih := ih phs (by simpa using h)
      unfold tagEvents at hih
      rw [hih]

/-- The length of the tagged start table. -/
theorem tagStart_length (df : List FRow) (h1 : (fluStarts df).length = 12) :
    (tagEvents "Start" (fluStarts df) (tileBR 6)).length = 12 := by
  unfold tagEvents
  rw [List.length_zipWith, h1]
  rfl

/-- The length of the tagged stop table. -/
theorem tagStop_length (df : List FRow) (h2 : (fluStops df).length = 12) :
    (tagEvents "Stop" (fluStops df) (tileBR 6)).length = 12 := by
  unfold tagEvents
  rw [List.length_zipWith, h2]
  rfl

/-- The merged, tagged table has 24 rows. -/
theorem fluTable_length (df : List FRow) (h1 : (fluStarts df).length = 12)
    (h2 : (fluStops df).length = 12) : (fluTable df).length = 24 := by
  unfold fluTable
  rw [List.length_zipWith, weave_length, tagStart_length df h1, tagStop_length df h2]
  rfl

/-- Projection of the merged table to `(Trial, TrialPhase, StartStop)`:
a fixed pattern, independent of the session content. -/
theorem fluTable_proj_tps (df : List FRow) (h1 : (fluStarts df).length = 12)
    (h2 : (fluStops df).length = 12) :
    (fluTable df).map (fun e => (e.trial, e.phase, e.ss)) = fluExpectedTPS := by
  unfold fluTable
  rw [map_zipWith_pair (fun (e : BEv) (tc : ℕ × String) => FEv.mk e.idx e.t e.label e.phase e.ss tc.1 tc.2)
    (fun e => (e.trial, e.phase, e.ss)) (fun e => (e.phase, e.ss)) id
    (fun pr tc => (tc.1, pr.1, pr.2)) (fun e tc => rfl)]
  rw [List.map_id, weave_map,
    tagEvents_map_proj "Start" Prod.mk _ _ (by rw [h1]; rfl),
    tagEvents_map_proj "Stop" Prod.mk _ _ (by rw [h2]; rfl)]
  decide

/-- Projection of the merged table to `(Trial, Condition, TrialPhase)`:
a fixed pattern, independent of the session content. -/
theorem fluTable_proj_tcph (df : List FRow) (h1 : (fluStarts df).length = 12)
    (h2 : (fluStops df).length = 12) :
    (fluTable df).map (fun e => (e.trial, e.cond, e.phase)) = fluExpectedTCPh := by
  unfold fluTable
  rw [map_zipWith_pair (fun (e : BEv) (tc : ℕ × String) => FEv.mk e.idx e.t e.label e.phase e.ss tc.1 tc.2)
    (fun e => (e.trial, e.cond, e.phase)) (fun e => e.phase) id
    (fun ph tc => (tc.1, tc.2, ph)) (fun e tc => rfl)]
  rw [List.map_id, weave_map,
    tagEvents_map_phase "Start" _ _ (by rw [h1]; rfl),
    tagEvents_map_phase "Stop" _ _ (by rw [h2]; rfl)]
  decide

/-- The trial column of the merged table is the positional
`np.repeat(range(1,7), 4)`. -/
theorem fluTable_map_trial (df : List FRow) (h1 : (fluStarts df).length = 12)
    (h2 : (fluStops df).length = 12) :
    (fluTable df).map (·.trial) = repeatEach 4 [1, 2, 3, 4, 5, 6] := by
  have h := congrArg (List.map (fun pr : ℕ × String × String => pr.1))
    (fluTable_proj_tps df h1 h2)
  rw [List.map_map] at h
  have hc : fluExpectedTPS.map (fun pr : ℕ × String × String => pr.1)
      = repeatEach 4 [1, 2, 3, 4, 5, 6] := by decide
  rw [hc] at h
  exact h

/-- The timestamps of the merged table are the boundary timestamps in
merge order. -/
theorem fluTable_map_t (df : List FRow) (h1 : (fluStarts df).length = 12)
    (h2 : (fluStops df).length = 12) :
    (fluTable df).map (·.t) = (weave (fluStarts df) (fluStops df)).map (·.t) := by
  unfold fluTable
  rw [map_zipWith_pair (fun (e : BEv) (tc : ℕ × String) => FEv.mk e.idx e.t e.label e.phase e.ss tc.1 tc.2)
    (fun e => e.t) (fun e => e.t) id
    (fun tv tc => tv) (fun e tc => rfl)]
  rw [List.map_id]
  rw [zipWith_left_eq _ _
    (by rw [List.length_map, weave_length, tagStart_length df h1, tagStop_length df h2]; rfl)]
  rw [weave_map, tagEvents_map_t _ _ _ (by rw [h1]; rfl),
    tagEvents_map_t _ _ _ (by rw [h2]; rfl), ← weave_map]

/-- C1.  Fluency/recall-style trial-event extraction fails fast whenever
the detected boundary rows do not number 24 (12 starts and 12 stops): the
positional phase assignment raises, so no trial-event table is produced.
On a well-formed 24-boundary stream it produces the 24-row table of
exactly 6 trials numbered 1-6, each with 4 events — Baseline then
Response, one Start before one Stop per trial and phase. -/
theorem c1_fluency_segmentation (df : List FRow) :
    ((fluStarts df).length + (fluStops df).length ≠ 24 →
      fluencyGetTrialEvents df
        = Except.error "ValueError: Length of values does not match length of index") ∧
    (WellFormedF df →
      ∃ evs, fluencyGetTrialEvents df = Except.ok evs ∧ evs.length = 24 ∧
        evs.map (fun e => (e.trial, e.phase, e.ss)) = fluExpectedTPS ∧
        ∀ tn, 1 ≤ tn → tn ≤ 6 → (evs.filter (fun e => e.trial == tn)).length = 4) := by
  constructor
  · intro hne
    unfold fluencyGetTrialEvents
    rw [if_neg (by omega)]
  · intro h
    refine ⟨fluTable df, fluencyOk df h, fluTable_length df h.1 h.2.1,
      fluTable_proj_tps df h.1 h.2.1, ?_⟩
    intro tn ht1 ht6
    rw [← List.countP_eq_length_filter]
    have hc : (fluTable df).countP (fun e => e.trial == tn)
        = fluExpectedTPS.countP (fun pr => pr.1 == tn) := by
      rw [← fluTable_proj_tps df h.1 h.2.1, List.countP_map]
      rfl
    rw [hc]
    interval_cases tn <;> decide

/-- C6.  On every well-formed fluency session the segmenter emits exactly
6 trials whose phase pattern within each trial is Baseline then Response,
and assigns condition `Letter` to trials 1-3 and `Category` to trials 4-6
purely by position — the pattern is the same for every well-formed input,
independent of the content of the event labels. -/
theorem c6_fluency_fixed_pattern (df : List FRow) (h : WellFormedF df) :
    ∃ evs, fluencyGetTrialEvents df = Except.ok evs ∧
      evs.map (fun e => (e.trial, e.cond, e.phase)) = fluExpectedTCPh ∧
      (∀ e ∈ evs, (e.trial ≤ 3 → e.cond = "Letter") ∧
        (4 ≤ e.trial → e.cond = "Category")) := by
  refine ⟨fluTable df, fluencyOk df h, fluTable_proj_tcph df h.1 h.2.1, ?_⟩
  have hall : ∀ pr ∈ fluExpectedTCPh,
      (pr.1 ≤ 3 → pr.2.1 = "Letter") ∧ (4 ≤ pr.1 → pr.2.1 = "Category") := by decide
  intro e he
  have hmem : (e.trial, e.cond, e.phase) ∈ fluExpectedTCPh := by
    rw [← fluTable_proj_tcph df h.1 h.2.1]
    exact List.mem_map_of_mem _ he
  exact hall _ hmem

/-- The trial window read off the event table by `clean_trials`
(lines 44-46): the first and last `TETTime` of the trial's event rows. -/
def windowOf (evs : List FEv) (tn : ℕ) : Option (ℤ × ℤ) :=
  match ((evs.filter (fun e => e.trial == tn)).map (·.t)).head?,
        ((evs.filter (fun e => e.trial == tn)).map (·.t)).getLast? with
  | some a, some b => some (a, b)
  | _, _ => none

/-- A raw sample at time `x` is selected for trial `tn`
(`df.TETTime >= starttime & df.TETTime <= stoptime`, both inclusive). -/
def inWindow (evs : List FEv) (tn : ℕ) (x : ℤ) : Prop :=
  ∃ a b, windowOf evs tn = some (a, b) ∧ a ≤ x ∧ x ≤ b

/-- Disjointness of the per-trial windows for any event table whose trial
column is sorted and whose timestamps strictly increase. -/
theorem windows_disjoint (evs : List FEv)
    (htr : List.Chain' (· ≤ ·) (evs.map (·.trial)))
    (hti : List.Chain' (· < ·) (evs.map (·.t))) :
    ∀ tn un x, tn ≠ un → inWindow evs tn x → inWindow evs un x → False := by
  have hp1 : List.Pairwise (fun e f : FEv => e.trial ≤ f.trial) evs :=
    List.pairwise_map.mp (List.chain'_iff_pairwise.mp htr)
  have hp2 : List.Pairwise (fun e f : FEv => e.t < f.t) evs :=
    List.pairwise_map.mp (List.chain'_iff_pairwise.mp hti)
  have hS : List.Pairwise (fun e f : FEv =>
      (e.trial < f.trial → e.t < f.t) ∧ (f.trial < e.trial → f.t < e.t)) evs := by
    refine (hp1.and hp2).imp ?_
    rintro e f ⟨hle, hlt⟩
    exact ⟨fun _ => hlt, fun hgt => absurd hgt (not_lt.mpr hle)⟩
  have hsym : Symmetric (fun e f : FEv =>
      (e.trial < f.trial → e.t < f.t) ∧ (f.trial < e.trial → f.t < e.t)) := by
    intro a b hab
    exact ⟨hab.2, hab.1⟩
  have hkey : ∀ e ∈ evs, ∀ f ∈ evs, e.trial < f.trial → e.t < f.t := by
    intro e he f hf hlt
    by_cases hef : e = f
    · rw [hef] at hlt
      omega
    · exact (List.Pairwise.forall hsym hS he hf hef).1 hlt
  have hwin : ∀ tn x, inWindow evs tn x →
      ∃ ea eb, ea ∈ evs ∧ eb ∈ evs ∧ ea.trial = tn ∧ eb.trial = tn ∧
        ea.t ≤ x ∧ x ≤ eb.t := by
    intro tn x hw
    obtain ⟨a, b, heq, hax, hxb⟩ := hw
    unfold windowOf at heq
    rcases hh : ((evs.filter (fun e => e.trial == tn)).map (·.t)).head? with _ | a2
    · rw [hh] at heq
      cases heq
    · rcases hl : ((evs.filter (fun e => e.trial == tn)).map (·.t)).getLast? with _ | b2
      · rw [hh, hl] at heq
        cases heq
      · rw [hh, hl] at heq
        have hab : a2 = a ∧ b2 = b := by
          simpa using heq
        have hma : a2 ∈ (evs.filter (fun e => e.trial == tn)).map (·.t) :=
          List.mem_of_mem_head? (by rw [hh]; rfl)
        have hmb : b2 ∈ (evs.filter (fun e => e.trial == tn)).map (·.t) := by
          rw [List.getLast?_eq_head?_reverse] at hl
          have := List.mem_of_mem_head? (l := (((evs.filter
            (fun e => e.trial == tn)).map (·.t))).reverse) (by rw [hl]; rfl)
          exact List.mem_reverse.mp this
        obtain ⟨ea, hea, heat⟩ := List.mem_map.mp hma
        obtain ⟨eb, heb, hebt⟩ := List.mem_map.mp hmb
        have hea2 := List.mem_filter.mp hea
        have heb2 := List.mem_filter.mp heb
        refine ⟨ea, eb, hea2.1, heb2.1, beq_iff_eq.mp hea2.2, beq_iff_eq.mp heb2.2, ?_, ?_⟩
        · rw [heat, hab.1]
          exact hax
        · rw [hebt, hab.2]
          exact hxb
  intro tn un x hne hw1 hw2
  obtain ⟨ea1, eb1, hm1, hm2, ht1, ht2, hx1, hx2⟩ := hwin tn x hw1
  obtain ⟨ea2, eb2, hm3, hm4, ht3, ht4, hx3, hx4⟩ := hwin un x hw2
  rcases Nat.lt_or_ge tn un with hlt | hge
  · have := hkey eb1 hm2 ea2 hm3 (by omega)
    omega
  · have hgt : un < tn := by omega
    have := hkey eb2 hm4 ea1 hm1 (by omega)
    omega

/-- The merged table's timestamps strictly increase on a well-formed,
time-sorted session. -/
theorem fluTable_time_chain (df : List FRow) (h : WellFormedF df)
    (hs : SortedTimes df) :
    List.Chain' (· < ·) ((fluTable df).map (·.t)) := by
  obtain ⟨h1, h2, hch⟩ := h
  rw [fluTable_map_t df h1 h2]
  refine chain'_map_lt_mono (weave (fluStarts df) (fluStops df)) (·.idx) (·.t) ?_ hch
  intro u v hu hv hlt
  obtain ⟨ru, hru, hrut⟩ := fluBoundary_row df u (weave_mem _ _ u hu)
  obtain ⟨rv, hrv, hrvt⟩ := fluBoundary_row df v (weave_mem _ _ v hv)
  show u.t < v.t
  rw [← hrut, ← hrvt]
  exact sortedTimes_get? hs u.idx v.idx ru rv hlt hru hrv

/-- Executable check for a nondecreasing chain of naturals. -/
def chainLeB : List ℕ → Bool
  | [] => true
  | [_] => true
  | a :: b :: l => decide (a ≤ b) && chainLeB (b :: l)

/-- Soundness of `chainLeB`. -/
theorem chainLeB_sound : ∀ l, chainLeB l = true → List.Chain' (· ≤ ·) l := by
  intro l
  induction l with
  | nil => intro _; exact List.chain'_nil
  | cons a l ih =>
    cases l with
    | nil => intro _; exact List.chain'_singleton a
    | cons b l2 =>
      intro h
      simp only [chainLeB, Bool.and_eq_true, decide_eq_true_eq] at h
      exact List.chain'_cons.mpr ⟨h.1, ih h.2⟩

/-- C9.  On every well-formed fluency session with strictly increasing
sample timestamps, the per-trial windows `[trial start, trial stop]`
selected inclusively by `clean_trials` are pairwise disjoint: a raw sample
belongs to at most one trial window. -/
theorem c9_fluency_windows_disjoint (df : List FRow) (evs : List FEv)
    (h : WellFormedF df) (hs : SortedTimes df)
    (hok : fluencyGetTrialEvents df = Except.ok evs) :
    ∀ tn un x, tn ≠ un → ¬(inWindow evs tn x ∧ inWindow evs un x) := by
  have heq : evs = fluTable df := by
    have h2 := fluencyOk df h
    rw [hok] at h2
    exact Except.ok.inj h2
  subst heq
  have htr : List.Chain' (· ≤ ·) ((fluTable df).map (·.trial)) := by
    rw [fluTable_map_trial df h.1 h.2.1]
    exact chainLeB_sound _ (by decide)
  intro tn un x hne hboth
  exact windows_disjoint (fluTable df) htr (fluTable_time_chain df h hs)
    tn un x hne hboth.1 hboth.2

/-- A well-formed concrete fluency session: 6 trials, each consisting of a
`ReadLetter` run (Baseline), a `BeginFile` run and a `RecordLetter` run
(Response), timestamps `0..35`. -/
def dfW : List FRow :=
  [⟨0, some "ReadLetter"⟩, ⟨1, some "ReadLetter"⟩, ⟨2, some "BeginFile"⟩, ⟨3, some "BeginFile"⟩,
   ⟨4, some "RecordLetter"⟩, ⟨5, some "RecordLetter"⟩, ⟨6, some "ReadLetter"⟩, ⟨7, some "ReadLetter"⟩,
   ⟨8, some "BeginFile"⟩, ⟨9, some "BeginFile"⟩, ⟨10, some "RecordLetter"⟩, ⟨11, some "RecordLetter"⟩,
   ⟨12, some "ReadLetter"⟩, ⟨13, some "ReadLetter"⟩, ⟨14, some "BeginFile"⟩, ⟨15, some "BeginFile"⟩,
   ⟨16, some "RecordLetter"⟩, ⟨17, some "RecordLetter"⟩, ⟨18, some "ReadLetter"⟩, ⟨19, some "ReadLetter"⟩,
   ⟨20, some "BeginFile"⟩, ⟨21, some "BeginFile"⟩, ⟨22, some "RecordLetter"⟩, ⟨23, some "RecordLetter"⟩,
   ⟨24, some "ReadLetter"⟩, ⟨25, some "ReadLetter"⟩, ⟨26, some "BeginFile"⟩, ⟨27, some "BeginFile"⟩,
   ⟨28, some "RecordLetter"⟩, ⟨29, some "RecordLetter"⟩, ⟨30, some "ReadLetter"⟩, ⟨31, some "ReadLetter"⟩,
   ⟨32, some "BeginFile"⟩, ⟨33, some "BeginFile"⟩, ⟨34, some "RecordLetter"⟩, ⟨35, some "RecordLetter"⟩]

/-- A malformed session: only the first 5 trials (30 rows), hence 20
boundary rows instead of 24. -/
def dfBad : List FRow := dfW.take 30
/-- Executable check for a strictly increasing chain of naturals. -/
def chainLtN : List ℕ → Bool
  | [] => true
  | [_] => true
  | a :: b :: l => decide (a < b) && chainLtN (b :: l)

/-- Soundness of `chainLtN`. -/
theorem chainLtN_sound : ∀ l, chainLtN l = true → List.Chain' (· < ·) l := by
  intro l
  induction l with
  | nil => intro _; exact List.chain'_nil
  | cons a l ih =>
    cases l with
    | nil => intro _; exact List.chain'_singleton a
    | cons b l2 =>
      intro h
      simp only [chainLtN, Bool.and_eq_true, decide_eq_true_eq] at h
      exact List.chain'_cons.mpr ⟨h.1, ih h.2⟩

/-- Executable check for a strictly increasing chain of integers. -/
def chainLtZ : List ℤ → Bool
  | [] => true
  | [_] => true
  | a :: b :: l => decide (a < b) && chainLtZ (b :: l)

/-- Soundness of `chainLtZ`. -/
theorem chainLtZ_sound : ∀ l, chainLtZ l = true → List.Chain' (· < ·) l := by
  intro l
  induction l with
  | nil => intro _; exact List.chain'_nil
  | cons a l ih =>
    cases l with
    | nil => intro _; exact List.chain'_singleton a
    | cons b l2 =>
      intro h
      simp only [chainLtZ, Bool.and_eq_true, decide_eq_true_eq] at h
      exact List.chain'_cons.mpr ⟨h.1, ih h.2⟩

/-- The concrete session is well formed. -/
theorem dfW_wellformed : WellFormedF dfW :=
  ⟨by decide, by decide, chainLtN_sound _ (by decide)⟩

/-- The concrete session's timestamps strictly increase. -/
theorem dfW_sorted : SortedTimes dfW := chainLtZ_sound _ (by decide)

/-- C1, witness: the malformed 20-boundary prefix raises; the well-formed
36-row session yields the 24-row table. -/
theorem c1_witness :
    ((fluStarts dfBad).length + (fluStops dfBad).length ≠ 24 ∧
      fluencyGetTrialEvents dfBad
        = Except.error "ValueError: Length of values does not match length of index") ∧
    (WellFormedF dfW ∧
      ∃ evs, fluencyGetTrialEvents dfW = Except.ok evs ∧ evs.length = 24 ∧
        evs.map (fun e => (e.trial, e.phase, e.ss)) = fluExpectedTPS ∧
        ∀ tn, 1 ≤ tn → tn ≤ 6 → (evs.filter (fun e => e.trial == tn)).length = 4) :=
  ⟨⟨by decide, (c1_fluency_segmentation dfBad).1 (by decide)⟩,
   ⟨dfW_wellformed, (c1_fluency_segmentation dfW).2 dfW_wellformed⟩⟩

/-- C6, witness. -/
theorem c6_witness :
    WellFormedF dfW ∧
    ∃ evs, fluencyGetTrialEvents dfW = Except.ok evs ∧
      evs.map (fun e => (e.trial, e.cond, e.phase)) = fluExpectedTCPh ∧
      (∀ e ∈ evs, (e.trial ≤ 3 → e.cond = "Letter") ∧
        (4 ≤ e.trial → e.cond = "Category")) :=
  ⟨dfW_wellformed, c6_fluency_fixed_pattern dfW dfW_wellformed⟩

/-- C9, witness. -/
theorem c9_witness :
    WellFormedF dfW ∧ SortedTimes dfW ∧
    fluencyGetTrialEvents dfW = Except.ok (fluTable dfW) ∧
    (∀ tn un x, tn ≠ un →
      ¬(inWindow (fluTable dfW) tn x ∧ inWindow (fluTable dfW) un x)) :=
  ⟨dfW_wellformed, dfW_sorted, fluencyOk dfW dfW_wellformed,
    c9_fluency_windows_disjoint dfW (fluTable dfW) dfW_wellformed dfW_sorted
      (fluencyOk dfW dfW_wellformed)⟩

/-- C8, evaluation at the failing input.  On the well-formed session the
recall `get_trial_events` produces a 24-row table in which the 12 start
rows have no `StartStop` value at all — the start marker was written to
the misspelled `StatStop` column (line 91), contradicting the docstring's
`StartStop = ['Start', 'Stop']`. -/
theorem c8_recall_marker_column_missing :
    Except.map (fun evs => evs.length) (recallGetTrialEvents dfW) = Except.ok 24 ∧
    Except.map (fun evs => evs.countP (fun e => e.startStop == none))
      (recallGetTrialEvents dfW) = Except.ok 12 ∧
    Except.map (fun evs => evs.countP (fun e => e.statStop == some "Start"))
      (recallGetTrialEvents dfW) = Except.ok 12 ∧
    Except.map (fun evs => evs.countP (fun e => e.startStop == some "Stop"))
      (recallGetTrialEvents dfW) = Except.ok 12 :=
  ⟨by rfl, by rfl, by rfl, by rfl⟩

/-! ### Recall `proc_subject` control flow (`hvlt_recall_proc_subject.py` 100-131)

The per-subject recall pipeline is modelled by its statement sequence, each
statement abstracted to the local name it binds, the local names its
expression reads, and whether it writes an output file.  The module's
globals contain no binding for `trialevents` (only the function
definitions and imports), so a read of `trialevents` with no prior local
assignment raises a `NameError` at that statement. -/

/-- One statement of the per-file body: bound name, names read, whether it
writes an output artifact. -/
structure PyStmt where
  target : Option String
  reads : List String
  isOutput : Bool
deriving DecidableEq

/-- Input-file extensions dispatched at lines 108-113. -/
inductive Extension
  | gazedata
  | csv
  | xlsx
  | other
deriving DecidableEq

/-- The statement sequence of the loop body of `proc_subject`
(lines 109-131), in source order:
0. `df = pd.read_csv(fname, ...)` (or `pd.read_excel(fname)`),
1. `df = df[df.CurrentObject.str.contains("Recall", na=False)]`,
2. `df = pupil_utils.deblink(df)`,
3. `dfresamp = pupil_utils.resamp_filt_data(df, ...)`,
4. `dfresamp = clean_trials(df, trialevents)`,
5. `dfresamp = dfresamp.reset_index(...).set_index(...)`,
6. `dfresamp['Timestamp'] = dfresamp.groupby(...).transform(...)`,
7. `dfresamp1s = dfresamp.groupby(...).apply(... resample('1S', ...) ...)`,
8. `pupilcols = [...]`,
9. `pupildf = dfresamp1s.reset_index()[pupilcols].sort_values(...)`,
10. `pupildf = pupildf[pupilcols].rename(...)`,
11. `pupildf['Timestamp'] = pd.to_datetime(...).dt.strftime(...)`,
12. `pupil_outname = pupil_utils.get_proc_outfile(fname, ...)`,
13. `pupildf.to_csv(pupil_outname, index=False)` (output),
14. `plot_trials(pupildf, fname)` (output). -/
def recallBody : List PyStmt :=
  [⟨some "df", ["fname"], false⟩,
   ⟨some "df", ["df"], false⟩,
   ⟨some "df", ["df"], false⟩,
   ⟨some "dfresamp", ["df"], false⟩,
   ⟨some "dfresamp", ["df", "trialevents"], false⟩,
   ⟨some "dfresamp", ["dfresamp"], false⟩,
   ⟨some "dfresamp", ["dfresamp"], false⟩,
   ⟨some "dfresamp1s", ["dfresamp"], false⟩,
   ⟨some "pupilcols", [], false⟩,
   ⟨some "pupildf", ["dfresamp1s", "pupilcols"], false⟩,
   ⟨some "pupildf", ["pupildf", "pupilcols"], false⟩,
   ⟨some "pupildf", ["pupildf"], false⟩,
   ⟨some "pupil_outname", ["fname"], false⟩,
   ⟨none, ["pupildf", "pupil_outname"], true⟩,
   ⟨none, ["pupildf", "fname"], true⟩]

/-- The extension dispatch: unsupported extensions raise `IOError` before
the body runs; every accepted extension proceeds with the same body. -/
def recallProcStmts : Extension → Option (List PyStmt)
  | Extension.other => none
  | _ => some recallBody

/-- Run the body, returning the index of the first statement that reads a
name with no prior binding, together with that name. -/
def firstUnbound : List String → ℕ → List PyStmt → Option (ℕ × String)
  | _, _, [] => none
  | bound, i, s :: rest =>
    match s.reads.find? (fun n => !(bound.contains n)) with
    | some n => some (i, n)
    | none =>
      firstUnbound (match s.target with | some tgt => tgt :: bound | none => bound)
        (i + 1) rest

/-- C10.  For every accepted input-file extension, the recall
`proc_subject` body reads `trialevents` at statement 4
(`dfresamp = clean_trials(df, trialevents)`) before any value was bound to
it, so the run fails with an unbound-name error there — after the
pre-filter, deblink and resample statements (1-3) and before any output
statement (the only output statements come later); the resampled result
bound to `dfresamp` by statement 3 is never read before statement 4
rebinds the same name, so it is discarded. -/
theorem c10_recall_unbound_trialevents :
    (∀ ext, ext ≠ Extension.other →
      recallProcStmts ext = some recallBody ∧
      firstUnbound ["fname"] 0 recallBody = some (4, "trialevents")) ∧
    (recallBody.take 4).all (fun s => !s.isOutput) = true ∧
    (recallBody.drop 13).all (·.isOutput) = true ∧
    (recallBody.get? 3).map (·.target) = some (some "dfresamp") ∧
    (recallBody.get? 4).map (fun s => (s.target, s.reads))
      = some (some "dfresamp", ["df", "trialevents"]) ∧
    ((recallBody.get? 4).map
      (fun s => decide ("dfresamp" ∉ s.reads))) = some true := by
  refine ⟨?_, by decide, by decide, by decide, by decide, by decide⟩
  intro ext hne
  cases ext with
  | gazedata => exact ⟨rfl, by decide⟩
  | csv => exact ⟨rfl, by decide⟩
  | xlsx => exact ⟨rfl, by decide⟩
  | other => exact absurd rfl hne

/-- C10, witness at the `.csv` extension. -/
theorem c10_witness :
    Extension.csv ≠ Extension.other ∧
    (recallProcStmts Extension.csv = some recallBody ∧
      firstUnbound ["fname"] 0 recallBody = some (4, "trialevents")) :=
  ⟨by decide, c10_recall_unbound_trialevents.1 Extension.csv (by decide)⟩
